import Mathlib

/-!
Shallow embedding of `src/parser.rs` and `src/histogram.rs` of the yeesh
repository (a git-log → commit-record parser plus hour/weekday bucketing).

Strings are modelled as `List Char` (the parser works on the lines obtained
from `input.split("\n")`, none of which contains `'\n'`).  The six regular
expressions of `parser.rs` are compiled, by hand, into executable matching
functions; comments on each one record the regex it embeds.  `\d` and `\s`
are modelled by their ASCII meaning (git's stat output is ASCII; the Rust
`regex` crate classes are Unicode-wide, which no input relevant here
exercises); likewise `str::trim`.
-/

namespace Yeesh

/-- ASCII whitespace, modelling the regex class `\s` and `str::trim`. -/
def isWs (c : Char) : Bool :=
  c = ' ' || c = '\t' || c = '\r' || c = '\x0b' || c = '\x0c'

/-- Leading-whitespace trim. -/
def trimL (l : List Char) : List Char := l.dropWhile isWs

/-- Trailing-whitespace trim. -/
def trimR (l : List Char) : List Char := (l.reverse.dropWhile isWs).reverse

/-- Both-ends trim, modelling Rust `str::trim`. -/
def trim (l : List Char) : List Char := trimR (trimL l)

/-- True when no character is a newline (the regex `.` never matches `'\n'`). -/
def noNl (l : List Char) : Bool := l.all (fun c => c != '\n')

/-- Model of `.+$` applied to the rest of a line: at least one character,
none of them a newline. -/
def dotPlus (l : List Char) : Bool := !l.isEmpty && noNl l

/-- Strip an expected literal prefix, returning the remainder on success. -/
def stripPre? : List Char → List Char → Option (List Char)
  | [], l => some l
  | _ :: _, [] => none
  | a :: p, b :: l => if a = b then stripPre? p l else none

/-- Model of `HASH_REGEX = ^commit (.+)$`: the capture is everything after
the literal `"commit "`. -/
def hashMatch (l : List Char) : Option (List Char) :=
  match stripPre? "commit ".toList l with
  | none => none
  | some r => if dotPlus r then some r else none

/-- Helper for `AUTHOR_REGEX`: split at the rightmost `" <"` that leaves a
nonempty tail (the first `.+` of the regex is greedy, so backtracking picks
the rightmost separator whose email part is nonempty). -/
def splitAu : List Char → Option (List Char × List Char)
  | [] => none
  | c :: rest =>
    match splitAu rest with
    | some (a, b) => some (c :: a, b)
    | none =>
      if c = ' ' then
        match rest with
        | '<' :: b => if b.isEmpty then none else some ([], b)
        | _ => none
      else none

/-- Model of `AUTHOR_REGEX = ^Author: (.+) <(.+)>$`.  The line must end in
`'>'`; the email capture is everything between the rightmost viable `" <"`
and that final `'>'`; the name capture (everything before the separator)
must be nonempty. -/
def authorMatch (l : List Char) : Option (List Char × List Char) :=
  match stripPre? "Author: ".toList l with
  | none => none
  | some r =>
    if noNl r then
      match r.reverse with
      | '>' :: revB =>
        match splitAu revB.reverse with
        | none => none
        | some (name, email) => if name.isEmpty then none else some (name, email)
      | _ => none
    else none

/-- Model of `DATE_REGEX = ^Date:(.+)$`. -/
def dateMatch (l : List Char) : Option (List Char) :=
  match stripPre? "Date:".toList l with
  | none => none
  | some r => if dotPlus r then some r else none

/-- Tail of `FILES_REGEX` after the optional `s`: `" changed"` then `.+$`. -/
def changedTail (l : List Char) : Bool :=
  match stripPre? " changed".toList l with
  | none => false
  | some r => dotPlus r

/-- Tail of `FILES_REGEX` after the digits: `" file"`, optional `'s'`
(greedy, with backtracking), `" changed"`, then `.+$`. -/
def filesTail (l : List Char) : Bool :=
  match stripPre? " file".toList l with
  | none => false
  | some r =>
    match r with
    | 's' :: r2 => changedTail r2 || changedTail r
    | _ => changedTail r

/-- Model of `FILES_REGEX = (\d+) files? changed.+$` (unanchored at the
left): the scan tries every position left to right; a match starts at a
digit, `\d+` greedily takes the maximal digit run from there, and the tail
must match `" files? changed.+$"`.  (Backtracking inside `\d+` cannot help:
shortening the run puts a digit where `" file"` expects a space.) -/
def filesMatch : List Char → Option (List Char)
  | [] => none
  | c :: rest =>
    if c.isDigit then
      if filesTail ((c :: rest).dropWhile Char.isDigit) then
        some ((c :: rest).takeWhile Char.isDigit)
      else filesMatch rest
    else filesMatch rest

/-- Tail of `INSERTS_REGEX` after the digits: `" insertion"`, optional
`'s'` (greedy, with backtracking), then `.+$`. -/
def insTail (l : List Char) : Bool :=
  match stripPre? " insertion".toList l with
  | none => false
  | some r =>
    match r with
    | 's' :: r2 => dotPlus r2 || dotPlus r
    | _ => dotPlus r

/-- Model of `INSERTS_REGEX = \s(\d+) insertions?.+$`: scan for the
leftmost whitespace character followed by a (maximal, nonempty) digit run
whose tail matches. -/
def insertsMatch : List Char → Option (List Char)
  | [] => none
  | c :: rest =>
    if isWs c then
      if !(rest.takeWhile Char.isDigit).isEmpty && insTail (rest.dropWhile Char.isDigit) then
        some (rest.takeWhile Char.isDigit)
      else insertsMatch rest
    else insertsMatch rest

/-- Tail of `DELETES_REGEX` after the digits. -/
def delTail (l : List Char) : Bool :=
  match stripPre? " deletion".toList l with
  | none => false
  | some r =>
    match r with
    | 's' :: r2 => dotPlus r2 || dotPlus r
    | _ => dotPlus r

/-- Model of `DELETES_REGEX = \s(\d+) deletions?.+$`. -/
def deletesMatch : List Char → Option (List Char)
  | [] => none
  | c :: rest =>
    if isWs c then
      if !(rest.takeWhile Char.isDigit).isEmpty && delTail (rest.dropWhile Char.isDigit) then
        some (rest.takeWhile Char.isDigit)
      else deletesMatch rest
    else deletesMatch rest

/-- Numeric value of a digit string. -/
def natOfDigits (l : List Char) : Nat := l.foldl (fun a c => a * 10 + (c.toNat - 48)) 0

/-- Model of `capture.parse::<u32>().unwrap_or_default()` on an all-digit
capture: the value when it fits in a `u32`, otherwise 0. -/
def u32Parse (l : List Char) : Nat :=
  if natOfDigits l < 4294967296 then natOfDigits l else 0

/-- Calendar date-time, modelling `time::PrimitiveDateTime`. -/
structure DT where
  year : Nat
  month : Nat
  day : Nat
  hour : Nat
  minute : Nat
  second : Nat
deriving DecidableEq

/-- Gregorian leap-year rule (as in the `time` crate). -/
def isLeap (y : Nat) : Bool := y % 4 == 0 && (y % 100 != 0 || y % 400 == 0)

/-- Days in a month (as validated by `time::Date::from_calendar_date`). -/
def daysInMonth (y m : Nat) : Nat :=
  match m with
  | 1 => 31 | 2 => if isLeap y then 29 else 28 | 3 => 31 | 4 => 30
  | 5 => 31 | 6 => 30 | 7 => 31 | 8 => 31 | 9 => 30 | 10 => 31
  | 11 => 30 | 12 => 31 | _ => 0

/-- Read exactly `n` ASCII digits, accumulating their value (the `time`
crate parses each zero-padded numeric component as exactly-n digits). -/
def readDigitsAux (acc : Nat) : Nat → List Char → Option (Nat × List Char)
  | 0, l => some (acc, l)
  | _ + 1, [] => none
  | n + 1, c :: l =>
    if c.isDigit then readDigitsAux (acc * 10 + (c.toNat - 48)) n l else none

/-- Expect one literal character. -/
def expectChar (x : Char) : List Char → Option (List Char)
  | [] => none
  | c :: l => if c = x then some l else none

/-- Model of `PrimitiveDateTime::parse` with the format
`[year]-[month]-[day] [hour]:[minute]:[second]`: fixed-width numeric
fields, literal separators, the whole input consumed, and the component
range checks the `time` crate performs. -/
def parseDT (l : List Char) : Option DT :=
  (readDigitsAux 0 4 l).bind fun (y, l) =>
  (expectChar '-' l).bind fun l =>
  (readDigitsAux 0 2 l).bind fun (mo, l) =>
  (expectChar '-' l).bind fun l =>
  (readDigitsAux 0 2 l).bind fun (d, l) =>
  (expectChar ' ' l).bind fun l =>
  (readDigitsAux 0 2 l).bind fun (hh, l) =>
  (expectChar ':' l).bind fun l =>
  (readDigitsAux 0 2 l).bind fun (mi, l) =>
  (expectChar ':' l).bind fun l =>
  (readDigitsAux 0 2 l).bind fun (s, l) =>
  if l = [] ∧ 1 ≤ mo ∧ mo ≤ 12 ∧ 1 ≤ d ∧ d ≤ daysInMonth y mo
      ∧ hh ≤ 23 ∧ mi ≤ 59 ∧ s ≤ 59 then
    some ⟨y, mo, d, hh, mi, s⟩
  else none

/-- The spec's error taxonomy for the `anyhow` failures of `parser.rs`:
a missing line, a line of the wrong shape, a date-shaped but unparseable
value. -/
inductive PError
  | unexpectedEnd
  | noMatch
  | badDate
deriving DecidableEq

/-- Author record (`Author::new(name, email)` as used by `parser.rs`). -/
structure Author where
  name : List Char
  email : List Char
deriving DecidableEq

/-- Commit record of `commit.rs` / `parser.rs`. -/
structure Commit where
  hash : List Char
  author : Author
  date : DT
  files : Nat
  inserts : Nat
  deletes : Nat
deriving DecidableEq

/-- Model of `Commit::default()`: empty strings, the Unix epoch, zero stats. -/
def Commit.default : Commit := ⟨[], ⟨[], []⟩, ⟨1970, 1, 1, 0, 0, 0⟩, 0, 0, 0⟩

/-- Model of `parse_hash` in `parser.rs`. -/
def parse_hash : Option (List Char) → Except PError (List Char)
  | none => .error .unexpectedEnd
  | some l =>
    match hashMatch l with
    | none => .error .noMatch
    | some h => .ok h

/-- Model of `parse_author` in `parser.rs`. -/
def parse_author : Option (List Char) → Except PError Author
  | none => .error .unexpectedEnd
  | some l =>
    match authorMatch l with
    | none => .error .noMatch
    | some (n, e) => .ok ⟨n, e⟩

/-- Model of `parse_date` in `parser.rs`: match `DATE_REGEX`, trim the
capture, parse it as a date-time. -/
def parse_date : Option (List Char) → Except PError DT
  | none => .error .unexpectedEnd
  | some l =>
    match dateMatch l with
    | none => .error .noMatch
    | some r =>
      match parseDT (trim r) with
      | none => .error .badDate
      | some dt => .ok dt

/-- Model of `parse_stat` in `parser.rs`, for a given stats matcher. -/
def parse_stat (m : List Char → Option (List Char)) :
    Option (List Char) → Except PError Nat
  | none => .error .unexpectedEnd
  | some l =>
    match m l with
    | none => .error .noMatch
    | some ds => .ok (u32Parse ds)

/-- Boolean `is_err` on the embedded results. -/
def isErrB {α : Type} : Except PError α → Bool
  | .error _ => true
  | .ok _ => false

/-- The state machine's states (`enum State` of `parser.rs`). -/
inductive MState
  | start | hash | author | date | stats | accept
deriving DecidableEq

/-- One configuration of the parser loop: current state, in-progress
commit, remaining lines, commits emitted so far (in emission order). -/
structure Config where
  state : MState
  commit : Commit
  lines : List (List Char)
  acc : List Commit
deriving DecidableEq

instance exceptDecEq {ε α : Type} [DecidableEq ε] [DecidableEq α] :
    DecidableEq (Except ε α) := fun x y =>
  match x, y with
  | .ok a, .ok b =>
    if h : a = b then isTrue (by rw [h]) else isFalse (fun h2 => h (by injection h2))
  | .error a, .error b =>
    if h : a = b then isTrue (by rw [h]) else isFalse (fun h2 => h (by injection h2))
  | .ok _, .error _ => isFalse (fun h2 => Except.noConfusion h2)
  | .error _, .ok _ => isFalse (fun h2 => Except.noConfusion h2)

/-- Result of one loop iteration: either the loop finishes (`break` or a
`?`-propagated error) or it continues at a new configuration. -/
inductive StepRes
  | done (r : Except PError (List Commit))
  | next (c : Config)
deriving DecidableEq

/-- One iteration of the `loop` in `parse` (`parser.rs`), transcribed arm
by arm.  `lines.head?`/`lines.tail` model `lines.next()` on the peekable
iterator; note the `Accept` arm pushes a clone of the in-progress commit
and does not reset it (the source does not either), and the `Stats` arm
with no line left changes nothing — the source's `continue` on three
errors. -/
def step (c : Config) : StepRes :=
  match c.state with
  | .start =>
    match c.lines with
    | [] => .done (.ok c.acc)
    | l :: ls =>
      if (trim l).length = 0 then .next ⟨.start, c.commit, ls, c.acc⟩
      else .next ⟨.hash, c.commit, l :: ls, c.acc⟩
  | .hash =>
    match parse_hash c.lines.head? with
    | .error e => .done (.error e)
    | .ok h => .next ⟨.author, { c.commit with hash := h }, c.lines.tail, c.acc⟩
  | .author =>
    match parse_author c.lines.head? with
    | .error e => .done (.error e)
    | .ok a => .next ⟨.date, { c.commit with author := a }, c.lines.tail, c.acc⟩
  | .date =>
    match parse_date c.lines.head? with
    | .error e => .done (.error e)
    | .ok dt => .next ⟨.stats, { c.commit with date := dt }, c.lines.tail, c.acc⟩
  | .stats =>
    let files := parse_stat filesMatch c.lines.head?
    let inserts := parse_stat insertsMatch c.lines.head?
    let deletes := parse_stat deletesMatch c.lines.head?
    if isErrB files && isErrB inserts && isErrB deletes then
      .next ⟨.stats, c.commit, c.lines.tail, c.acc⟩
    else
      .next ⟨.accept,
        { c.commit with
            files := files.toOption.getD 0,
            inserts := inserts.toOption.getD 0,
            deletes := deletes.toOption.getD 0 },
        c.lines.tail, c.acc⟩
  | .accept => .next ⟨.start, c.commit, c.lines, c.acc ++ [c.commit]⟩

/-- Iterate `step` with fuel; `none` means the fuel ran out. -/
def run : Nat → Config → Option (Except PError (List Commit))
  | 0, _ => none
  | n + 1, c =>
    match step c with
    | .done r => some r
    | .next c' => run n c'

/-- How many fuel-free iterations a state can take before a line is
consumed: `Accept → Start → Hash` is the longest chain. -/
def phase : MState → Nat
  | .accept => 2
  | .start => 1
  | _ => 0

/-- Model of `input.split("\n")`. -/
def splitNl : List Char → List (List Char)
  | [] => [[]]
  | c :: rest =>
    if c = '\n' then [] :: splitNl rest
    else
      match splitNl rest with
      | [] => [[c]]
      | r :: rs => (c :: r) :: rs

/-- Initial configuration of `parse`: note the machine starts in the
hash-expecting state (`let mut state = State::Hash;`). -/
def initConfig (input : List Char) : Config :=
  ⟨.hash, Commit.default, splitNl input, []⟩

/-- Fuel sufficient for any terminating execution: every iteration either
consumes a line or strictly decreases `phase` (except the Stats arm on
exhausted input, which never terminates). -/
def fuelFor (c : Config) : Nat := 3 * c.lines.length + phase c.state + 1

/-- Model of `parse` in `parser.rs`.  `some r` is the function's result;
`none` means the fuel bound was hit, which only the non-terminating
Stats-on-exhausted-input loop can cause. -/
def parse (input : List Char) : Option (Except PError (List Commit)) :=
  run (fuelFor (initConfig input)) (initConfig input)

/-! Validity predicates used to state the spec's Commit invariant. -/

/-- A syntactically valid timestamp: exactly the component ranges
`parseDT` (mirroring the `time` crate) enforces. -/
def DTValid (t : DT) : Prop :=
  1 ≤ t.month ∧ t.month ≤ 12 ∧ 1 ≤ t.day ∧ t.day ≤ daysInMonth t.year t.month
    ∧ t.hour ≤ 23 ∧ t.minute ≤ 59 ∧ t.second ≤ 59

instance (t : DT) : Decidable (DTValid t) := by unfold DTValid; infer_instance

/-- The spec §3 invariant on an emitted commit: non-empty hash, name and
email, and a syntactically valid timestamp (numeric stats are `Nat`s in
this embedding, hence non-negative by type). -/
def OKCommit (cm : Commit) : Prop :=
  cm.hash ≠ [] ∧ cm.author.name ≠ [] ∧ cm.author.email ≠ [] ∧ DTValid cm.date

/-- What is known about the in-progress commit in each state: fields are
filled in machine order hash → author → date. -/
def stateInv : MState → Commit → Prop
  | .start, _ => True
  | .hash, _ => True
  | .author, cm => cm.hash ≠ []
  | .date, cm => cm.hash ≠ [] ∧ cm.author.name ≠ [] ∧ cm.author.email ≠ []
  | .stats, cm => OKCommit cm
  | .accept, cm => OKCommit cm

/-- Invariant of a loop configuration: all emitted commits satisfy the
spec invariant, and the in-progress commit satisfies its state's part. -/
def invConf (c : Config) : Prop :=
  (∀ cm ∈ c.acc, OKCommit cm) ∧ stateInv c.state c.commit

/-! Renderers producing inputs that match the grammar of spec §6, used to
quantify over whole families of valid inputs. -/

/-- Join lines with `'\n'` separators (left inverse of `splitNl` on
newline-free lines). -/
def joinNl : List (List Char) → List Char
  | [] => []
  | [l] => l
  | l :: ls => l ++ '\n' :: joinNl ls

/-- Does `pat` occur as a contiguous subsequence of `l`? -/
def hasSeq (pat l : List Char) : Bool :=
  match l with
  | [] => pat.isEmpty
  | _ :: rest => (stripPre? pat l).isSome || hasSeq pat rest

/-- ASCII digit character for a value below 10. -/
def digitChar (k : Nat) : Char := Char.ofNat (48 + k)

/-- Two-digit zero-padded rendering. -/
def pad2 (n : Nat) : List Char := [digitChar (n / 10 % 10), digitChar (n % 10)]

/-- Four-digit zero-padded rendering. -/
def pad4 (n : Nat) : List Char :=
  [digitChar (n / 1000 % 10), digitChar (n / 100 % 10), digitChar (n / 10 % 10),
    digitChar (n % 10)]

/-- A nonempty all-digit string. -/
def isDigits (l : List Char) : Bool := !l.isEmpty && l.all Char.isDigit

/-- The `YYYY-MM-DD HH:MM:SS` rendering of a timestamp (nested so that
each numeric field is followed syntactically by its separator and rest). -/
def dateChars (y mo d hh mi s : Nat) : List Char :=
  pad4 y ++ ('-' :: (pad2 mo ++ ('-' :: (pad2 d ++ (' ' :: (pad2 hh
    ++ (':' :: (pad2 mi ++ (':' :: pad2 s)))))))))

/-- Rendering of an optional insertion clause. -/
def insSeg : Option (List Char) → List Char
  | some dsI => ", ".toList ++ (dsI ++ " insertions(+)".toList)
  | none => []

/-- Rendering of an optional deletion clause. -/
def delSeg : Option (List Char) → List Char
  | some dsD => ", ".toList ++ (dsD ++ " deletions(-)".toList)
  | none => []

/-- A stats line per the grammar: a files clause, then optional insertion
and deletion clauses carrying the given digit strings. -/
def statsLine (dsF : List Char) (insPart delPart : Option (List Char)) : List Char :=
  ' ' :: (dsF ++ (" files changed".toList ++ (insSeg insPart ++ delSeg delPart)))

/-- The rendered author line `Author: <name> <<email>>`. -/
def authorLine (name email : List Char) : List Char :=
  "Author: ".toList ++ (name ++ (" <".toList ++ (email ++ ['>'])))

/-- A full single-record input per the grammar of spec §6: hash line,
author line, date line, message/blank lines, stats line. -/
def renderRecord (h name email : List Char) (y mo d hh mi s : Nat)
    (msgs : List (List Char)) (stats : List Char) : List Char :=
  joinNl (["commit ".toList ++ h,
           authorLine name email,
           "Date:   ".toList ++ dateChars y mo d hh mi s]
          ++ msgs ++ [stats])

/-- The commit value a grammar record denotes (stat clauses absent from
the stats line default to 0; present ones parse their digit string). -/
def statOf : Option (List Char) → Nat
  | none => 0
  | some ds => u32Parse ds

/-- The literal numeric value embedded in an optional stats clause. -/
def optVal : Option (List Char) → Nat
  | none => 0
  | some ds => natOfDigits ds

/-- Well-formedness of an optional stats clause: a nonempty digit string
whose value fits in a `u32`. -/
def optDigitsOK : Option (List Char) → Prop
  | none => True
  | some ds => isDigits ds = true ∧ natOfDigits ds < 4294967296

/-! Aggregation (`histogram.rs`). -/

/-- The seven weekdays (`time::Weekday`). -/
inductive Weekday
  | monday | tuesday | wednesday | thursday | friday | saturday | sunday
deriving DecidableEq

/-- Day of week of a calendar date (Sakamoto's congruence), modelling
`time::Date::weekday`; `w = 0` means Sunday. -/
def dayOfWeek (y m d : Nat) : Weekday :=
  let t := [0, 3, 2, 5, 0, 3, 5, 1, 4, 6, 2, 4]
  let y' := if m < 3 then y - 1 else y
  let w := (y' + y' / 4 + y' / 400 + 6 * (y' / 100) + t.getD (m - 1) 0 + d) % 7
  match w with
  | 0 => .sunday
  | 1 => .monday
  | 2 => .tuesday
  | 3 => .wednesday
  | 4 => .thursday
  | 5 => .friday
  | _ => .saturday

/-- Model of `get_hour` in `histogram.rs`: `commit.date.hour()`. -/
def get_hour (cm : Commit) : Nat := cm.date.hour

/-- Model of `get_weekday` in `histogram.rs`: the source's `match` sending
Monday to 1 … Sunday to 7. -/
def get_weekday (cm : Commit) : Nat :=
  match dayOfWeek cm.date.year cm.date.month cm.date.day with
  | .monday => 1
  | .tuesday => 2
  | .wednesday => 3
  | .thursday => 4
  | .friday => 5
  | .saturday => 6
  | .sunday => 7

/-- Modelled from the spec: `bucket_by_hour(commits) -> mapping<0..23, count>`.
The source's `Histogram::new(Kind::ByHour, _)` records `get_hour` of every
commit into an `hdrhistogram` (an external crate) whose per-value counts
realize exactly this mapping; the mapping itself is not a function of the
source, so it is modelled from spec §4.2 on top of the source's `get_hour`. -/
def bucket_by_hour (commits : List Commit) : List (Nat × Nat) :=
  (List.range 24).map fun k => (k, (commits.filter fun cm => get_hour cm == k).length)

/-- Modelled from the spec: `bucket_by_weekday(commits) -> mapping<1..7, count>`
(see `bucket_by_hour`; this one records `get_weekday`). -/
def bucket_by_weekday (commits : List Commit) : List (Nat × Nat) :=
  ((List.range 7).map (· + 1)).map
    fun k => (k, (commits.filter fun cm => get_weekday cm == k).length)

/-! Concrete inputs used by individual claims. -/

/-- A record whose message is never followed by a stats line: the input is
exhausted while the machine is in the stats-expecting state. -/
def c2input : List Char :=
  "commit a\nAuthor: J <j@e>\nDate:   2022-11-24 22:11:50\nmsg".toList

/-- An input consisting only of blank lines. -/
def blankInput : List Char := "\n  \n".toList

/-- A record whose line after the date matches the insertion pattern even
though it is a message line, followed by the real stats line. -/
def c1input : List Char :=
  "commit abc\nAuthor: J <j@e>\nDate:   2022-11-24 22:11:50\n\n  undo 1 insertions bad\n\n  2 files changed, 3 insertions(+)".toList

/-- A record whose stats line is a bare files clause with nothing after
the word changed. -/
def c5input : List Char :=
  "commit abc\nAuthor: J <j@e>\nDate:   2022-11-24 22:11:50\n\n  msg\n\n  3 files changed".toList

/-- The same record with one character after the word changed. -/
def c5fixed : List Char :=
  "commit abc\nAuthor: J <j@e>\nDate:   2022-11-24 22:11:50\n\n  msg\n\n  3 files changed,".toList

/-- A record ending right after a well-formed author line. -/
def c6input : List Char := "commit abc\nAuthor: J <j@e>".toList

/-- A Date line with an unparseable value. -/
def c7badval : List Char := "commit abc\nAuthor: J <j@e>\nDate:   not-a-date".toList

/-- A date-expecting line with no `Date:` prefix at all. -/
def c7noprefix : List Char := "commit abc\nAuthor: J <j@e>\n2022-11-24 22:11:50".toList

/-- A Date line with month 13. -/
def c7month13 : List Char := "commit abc\nAuthor: J <j@e>\nDate:   2022-13-01 10:00:00".toList

/-- A stats line whose insertion count exceeds `u32::MAX`. -/
def c9input : List Char :=
  "commit abc\nAuthor: J <j@e>\nDate:   2022-11-24 22:11:50\n\n  1 file changed, 4294967296 insertions(+)".toList

/-- Two records where the first one has no stats line: the second record's
header lines are eaten by the stats-expecting retry loop and its stats
line is attributed to the first record. -/
def c10input : List Char :=
  "commit aaa\nAuthor: A <a@x>\nDate:   2022-11-24 22:11:50\n\n  msg1\n\ncommit bbb\nAuthor: B <b@x>\nDate:   2022-11-25 10:00:00\n\n  msg2\n\n  1 file changed, 2 insertions(+), 3 deletions(-)".toList

/-- A grammar record whose stats line is a bare files clause — no insertion
or deletion clause, hence nothing after the word "changed": that line
matches none of the three stats patterns. -/
def c1bare : List Char :=
  renderRecord "abc".toList "J".toList "j@e".toList 2022 11 24 22 11 50
    [[], "  msg".toList, []] (statsLine "3".toList none none)

/-- Two consecutive well-formed records (order-preservation check). -/
def c4input : List Char :=
  "commit abc123\nAuthor: Jon <jon@email.ca>\nDate:   2022-11-24 22:11:50\n\n  Do things\n\n  1 file changed, 2 deletions(-)\n  \ncommit def456\nAuthor: Not Jon <notjon@email.org>\nDate:   2022-11-25 10:00:01\n\n  More things\n\n  11 file changed, 22 insertions(+), 33 deletions(-)".toList

/-! ## General lemmas about the loop semantics -/

theorem run_next {c c' : Config} (h : step c = .next c') (n : Nat) :
    run (n + 1) c = run n c' := by
  simp [run, h]

theorem run_done {c : Config} {r : Except PError (List Commit)}
    (h : step c = .done r) (n : Nat) : run (n + 1) c = some r := by
  simp [run, h]

theorem run_mono {c : Config} {r : Except PError (List Commit)} :
    ∀ {n : Nat}, run n c = some r → run (n + 1) c = some r := by
  intro n
  induction n generalizing c with
  | zero => intro h; exact absurd h (by simp [run])
  | succ n ih =>
    intro h
    match hs : step c with
    | .done r' => rw [run_done hs] at h ⊢; exact h
    | .next c' => rw [run_next hs] at h; rw [run_next hs]; exact ih h

theorem run_le {c : Config} {r : Except PError (List Commit)} {n m : Nat}
    (hnm : n ≤ m) (h : run n c = some r) : run m c = some r := by
  induction hnm with
  | refl => exact h
  | step _ ih => exact run_mono ih

theorem run_none_of_next {c c' : Config} (h : step c = .next c')
    (hall : ∀ m, run m c' = none) : ∀ n, run n c = none := by
  intro n
  cases n with
  | zero => rfl
  | succ n => rw [run_next h]; exact hall n

/-- The Stats arm on exhausted input steps to itself: `lines.next()` is
`None`, all three `parse_stat` calls fail, and `continue` changes nothing. -/
theorem step_stats_nil (cm : Commit) (acc : List Commit) :
    step ⟨.stats, cm, [], acc⟩ = .next ⟨.stats, cm, [], acc⟩ := rfl

/-- Hence the loop never terminates from such a configuration. -/
theorem run_stats_nil (cm : Commit) (acc : List Commit) :
    ∀ n, run n ⟨.stats, cm, [], acc⟩ = none := by
  intro n
  induction n with
  | zero => rfl
  | succ n ih => rw [run_next (step_stats_nil cm acc)]; exact ih

/-- A line matching none of the three stats patterns is consumed and
discarded, the machine staying in the stats-expecting state. -/
theorem step_stats_skip {l : List Char} (cm : Commit) (ls : List (List Char))
    (acc : List Commit) (hf : filesMatch l = none) (hi : insertsMatch l = none)
    (hd : deletesMatch l = none) :
    step ⟨.stats, cm, l :: ls, acc⟩ = .next ⟨.stats, cm, ls, acc⟩ := by
  simp [step, parse_stat, hf, hi, hd, isErrB]

theorem run_stats_skip {msgs : List (List Char)}
    (hm : ∀ l ∈ msgs, filesMatch l = none ∧ insertsMatch l = none ∧ deletesMatch l = none)
    (cm : Commit) (rest : List (List Char)) (acc : List Commit) (n : Nat) :
    run (msgs.length + n) ⟨.stats, cm, msgs ++ rest, acc⟩ = run n ⟨.stats, cm, rest, acc⟩ := by
  induction msgs with
  | nil => simp
  | cons l ms ih =>
    have hl := hm l (by simp)
    have hms : ∀ l ∈ ms, filesMatch l = none ∧ insertsMatch l = none ∧ deletesMatch l = none :=
      fun x hx => hm x (by simp [hx])
    simp only [List.cons_append, List.length_cons]
    have he : ms.length + 1 + n = (ms.length + n) + 1 := by omega
    rw [he, run_next (step_stats_skip cm (ms ++ rest) acc hl.1 hl.2.1 hl.2.2)]
    exact ih hms

/-- In the Start state, blank lines are consumed until the input runs out,
at which point the machine terminates successfully with the commits
emitted so far. -/
theorem run_start_blanks {ls : List (List Char)}
    (hb : ∀ l ∈ ls, (trim l).length = 0) (cm : Commit) (acc : List Commit) :
    run (ls.length + 1) ⟨.start, cm, ls, acc⟩ = some (.ok acc) := by
  induction ls with
  | nil => rfl
  | cons l ms ih =>
    have hstep : step ⟨.start, cm, l :: ms, acc⟩ = .next ⟨.start, cm, ms, acc⟩ := by
      simp [step, hb l (by simp)]
    have : (l :: ms).length + 1 = (ms.length + 1) + 1 := by simp
    rw [this, run_next hstep]
    exact ih fun x hx => hb x (by simp [hx])

/-! Lemmas about the line splitter. -/

theorem splitNl_noNl {l : List Char} (h : noNl l = true) : splitNl l = [l] := by
  induction l with
  | nil => rfl
  | cons c r ih =>
    simp only [noNl, List.all_cons, Bool.and_eq_true] at h
    simp only [splitNl]
    rw [if_neg (by simpa using h.1), ih h.2]

theorem splitNl_append {l r : List Char} (h : noNl l = true) :
    splitNl (l ++ '\n' :: r) = l :: splitNl r := by
  induction l with
  | nil => simp [splitNl]
  | cons c t ih =>
    simp only [noNl, List.all_cons, Bool.and_eq_true] at h
    simp only [List.cons_append, splitNl]
    rw [if_neg (by simpa using h.1)]
    have ha : t.append ('\n' :: r) = t ++ '\n' :: r := rfl
    rw [ha, ih h.2]

/-! Lemmas extracting facts from successful matches. -/

theorem hashMatch_ne_nil {l h : List Char} (hm : hashMatch l = some h) : h ≠ [] := by
  intro hn
  subst hn
  unfold hashMatch at hm
  split at hm
  · simp at hm
  · split at hm
    · rename_i hd
      cases hm
      simp [dotPlus] at hd
    · simp at hm

theorem splitAu_cons (c : Char) (rest : List Char) :
    splitAu (c :: rest)
      = match splitAu rest with
        | some (a, b) => some (c :: a, b)
        | none =>
          if c = ' ' then
            match rest with
            | '<' :: b => if b.isEmpty then none else some ([], b)
            | _ => none
          else none := rfl

theorem splitAu_email_ne_nil : ∀ {l : List Char} {a b : List Char},
    splitAu l = some (a, b) → b ≠ [] := by
  intro l
  induction l with
  | nil => intro a b h; exact absurd h (by simp [splitAu])
  | cons c rest ih =>
    intro a b h
    rw [splitAu_cons] at h
    cases hs : splitAu rest with
    | some p =>
      rw [hs] at h
      obtain ⟨a', b'⟩ := p
      simp only [Option.some.injEq, Prod.mk.injEq] at h
      rw [← h.2]
      exact ih hs
    | none =>
      rw [hs] at h
      split at h
      · rename_i heq
        exact absurd heq (by simp)
      · split at h
        · split at h
          · split at h
            · exact absurd h (by simp)
            · rename_i hne
              cases h
              simpa using hne
          · exact absurd h (by simp)
        · exact absurd h (by simp)

theorem authorMatch_ne_nil {l n e : List Char}
    (hm : authorMatch l = some (n, e)) : n ≠ [] ∧ e ≠ [] := by
  unfold authorMatch at hm
  split at hm
  · exact absurd hm (by simp)
  · split at hm
    · split at hm
      · split at hm
        · exact absurd hm (by simp)
        · split at hm
          · exact absurd hm (by simp)
          · rename_i name email hsp hne
            cases hm
            exact ⟨by simpa using hne, splitAu_email_ne_nil hsp⟩
      · exact absurd hm (by simp)
    · exact absurd hm (by simp)

theorem parseDT_valid {l : List Char} {t : DT} (hp : parseDT l = some t) :
    DTValid t := by
  unfold parseDT at hp
  simp only [Option.bind_eq_some] at hp
  obtain ⟨⟨y, l1⟩, _, ⟨l2, _, ⟨⟨mo, l3⟩, _, ⟨l4, _, ⟨⟨d, l5⟩, _, ⟨l6, _, ⟨⟨hh, l7⟩, _,
    ⟨l8, _, ⟨⟨mi, l9⟩, _, ⟨l10, _, ⟨⟨s, l11⟩, _, hp⟩⟩⟩⟩⟩⟩⟩⟩⟩⟩⟩ := hp
  split at hp
  · rename_i hcond
    cases hp
    exact ⟨hcond.2.1, hcond.2.2.1, hcond.2.2.2.1, hcond.2.2.2.2.1,
      hcond.2.2.2.2.2.1, hcond.2.2.2.2.2.2.1, hcond.2.2.2.2.2.2.2⟩
  · exact absurd hp (by simp)

theorem parse_hash_ok {o : Option (List Char)} {h : List Char}
    (hp : parse_hash o = .ok h) : ∃ l, o = some l ∧ hashMatch l = some h := by
  cases o with
  | none => exact absurd hp (by simp [parse_hash])
  | some l =>
    refine ⟨l, rfl, ?_⟩
    cases hm : hashMatch l with
    | none => simp [parse_hash, hm] at hp
    | some h2 =>
      simp only [parse_hash, hm, Except.ok.injEq] at hp
      rw [hp]

theorem parse_author_ok {o : Option (List Char)} {a : Author}
    (hp : parse_author o = .ok a) :
    ∃ l, o = some l ∧ authorMatch l = some (a.name, a.email) := by
  cases o with
  | none => exact absurd hp (by simp [parse_author])
  | some l =>
    refine ⟨l, rfl, ?_⟩
    cases hm : authorMatch l with
    | none => simp [parse_author, hm] at hp
    | some p =>
      obtain ⟨n, e⟩ := p
      simp only [parse_author, hm, Except.ok.injEq] at hp
      rw [← hp]

theorem parse_date_ok {o : Option (List Char)} {t : DT}
    (hp : parse_date o = .ok t) : DTValid t := by
  cases o with
  | none => exact absurd hp (by simp [parse_date])
  | some l =>
    cases hdm : dateMatch l with
    | none => simp [parse_date, hdm] at hp
    | some r =>
      cases hdt : parseDT (trim r) with
      | none => simp [parse_date, hdm, hdt] at hp
      | some dt =>
        simp only [parse_date, hdm, hdt, Except.ok.injEq] at hp
        rw [← hp]
        exact parseDT_valid hdt

/-! Invariant preservation along the loop. -/

theorem inv_step {c c' : Config} (hi : invConf c) (hs : step c = .next c') :
    invConf c' := by
  obtain ⟨hacc, hst⟩ := hi
  obtain ⟨st, cm, lines, acc⟩ := c
  cases st with
  | start =>
    cases lines with
    | nil => simp [step] at hs
    | cons l ls =>
      simp only [step] at hs
      by_cases hb : (trim l).length = 0
      · rw [if_pos hb] at hs
        cases hs; exact ⟨hacc, trivial⟩
      · rw [if_neg hb] at hs
        cases hs; exact ⟨hacc, trivial⟩
  | hash =>
    simp only [step] at hs
    cases hh : parse_hash (List.head? lines) with
    | error e => rw [hh] at hs; exact absurd hs (by simp)
    | ok h2 =>
      rw [hh] at hs
      cases hs
      obtain ⟨l, _, hm⟩ := parse_hash_ok hh
      exact ⟨hacc, hashMatch_ne_nil hm⟩
  | author =>
    simp only [step] at hs
    cases hh : parse_author (List.head? lines) with
    | error e => rw [hh] at hs; exact absurd hs (by simp)
    | ok a2 =>
      rw [hh] at hs
      cases hs
      obtain ⟨l, _, hm⟩ := parse_author_ok hh
      have hne := authorMatch_ne_nil hm
      exact ⟨hacc, hst, hne.1, hne.2⟩
  | date =>
    simp only [step] at hs
    cases hh : parse_date (List.head? lines) with
    | error e => rw [hh] at hs; exact absurd hs (by simp)
    | ok t =>
      rw [hh] at hs
      cases hs
      exact ⟨hacc, hst.1, hst.2.1, hst.2.2, parse_date_ok hh⟩
  | stats =>
    simp only [step] at hs
    by_cases hb : (isErrB (parse_stat filesMatch (List.head? lines))
        && isErrB (parse_stat insertsMatch (List.head? lines))
        && isErrB (parse_stat deletesMatch (List.head? lines))) = true
    · rw [if_pos hb] at hs
      cases hs; exact ⟨hacc, hst⟩
    · rw [if_neg hb] at hs
      cases hs; exact ⟨hacc, hst.1, hst.2.1, hst.2.2.1, hst.2.2.2⟩
  | accept =>
    simp only [step] at hs
    cases hs
    refine ⟨?_, trivial⟩
    intro x hx
    rcases List.mem_append.mp hx with hx | hx
    · exact hacc x hx
    · rw [List.mem_singleton.mp hx]; exact hst

/-- A finished `.ok` result is exactly the accumulator (only the Start
state on exhausted input ends the loop successfully). -/
theorem step_done_ok {c : Config} {res : List Commit}
    (h : step c = .done (.ok res)) : res = c.acc := by
  obtain ⟨st, cm, lines, acc⟩ := c
  cases st with
  | start =>
    cases lines with
    | nil =>
      simp only [step, StepRes.done.injEq, Except.ok.injEq] at h
      exact h.symm
    | cons l ls =>
      simp only [step] at h
      by_cases hb : (trim l).length = 0
      · rw [if_pos hb] at h; simp at h
      · rw [if_neg hb] at h; simp at h
  | hash =>
    simp only [step] at h
    cases hh : parse_hash (List.head? lines) with
    | error e => rw [hh] at h; simp at h
    | ok h2 => rw [hh] at h; simp at h
  | author =>
    simp only [step] at h
    cases hh : parse_author (List.head? lines) with
    | error e => rw [hh] at h; simp at h
    | ok a2 => rw [hh] at h; simp at h
  | date =>
    simp only [step] at h
    cases hh : parse_date (List.head? lines) with
    | error e => rw [hh] at h; simp at h
    | ok t => rw [hh] at h; simp at h
  | stats =>
    simp only [step] at h
    by_cases hb : (isErrB (parse_stat filesMatch (List.head? lines))
        && isErrB (parse_stat insertsMatch (List.head? lines))
        && isErrB (parse_stat deletesMatch (List.head? lines))) = true
    · rw [if_pos hb] at h; simp at h
    · rw [if_neg hb] at h; simp at h
  | accept => simp only [step] at h; simp at h

theorem run_ok_inv {res : List Commit} : ∀ {n : Nat} {c : Config}, invConf c →
    run n c = some (.ok res) → ∀ cm ∈ res, OKCommit cm := by
  intro n
  induction n with
  | zero => intro c _ h; simp [run] at h
  | succ n ih =>
    intro c hi h
    cases hs : step c with
    | done r =>
      rw [run_done hs] at h
      have hr : r = .ok res := by simpa using h
      subst hr
      have := step_done_ok hs
      subst this
      exact hi.1
    | next c' =>
      rw [run_next hs] at h
      exact ih (inv_step hi hs) h

theorem step_acc_extends {c c' : Config} (h : step c = .next c') :
    ∃ u, c'.acc = c.acc ++ u := by
  obtain ⟨st, cm, lines, acc⟩ := c
  cases st with
  | start =>
    cases lines with
    | nil => simp [step] at h
    | cons l ls =>
      simp only [step] at h
      by_cases hb : (trim l).length = 0
      · rw [if_pos hb] at h; cases h; exact ⟨[], by simp⟩
      · rw [if_neg hb] at h; cases h; exact ⟨[], by simp⟩
  | hash =>
    simp only [step] at h
    cases hh : parse_hash (List.head? lines) with
    | error e => rw [hh] at h; exact absurd h (by simp)
    | ok h2 => rw [hh] at h; cases h; exact ⟨[], by simp⟩
  | author =>
    simp only [step] at h
    cases hh : parse_author (List.head? lines) with
    | error e => rw [hh] at h; exact absurd h (by simp)
    | ok a2 => rw [hh] at h; cases h; exact ⟨[], by simp⟩
  | date =>
    simp only [step] at h
    cases hh : parse_date (List.head? lines) with
    | error e => rw [hh] at h; exact absurd h (by simp)
    | ok t => rw [hh] at h; cases h; exact ⟨[], by simp⟩
  | stats =>
    simp only [step] at h
    by_cases hb : (isErrB (parse_stat filesMatch (List.head? lines))
        && isErrB (parse_stat insertsMatch (List.head? lines))
        && isErrB (parse_stat deletesMatch (List.head? lines))) = true
    · rw [if_pos hb] at h; cases h; exact ⟨[], by simp⟩
    · rw [if_neg hb] at h; cases h; exact ⟨[], by simp⟩
  | accept =>
    simp only [step] at h
    cases h
    exact ⟨[cm], rfl⟩

theorem run_acc_prefix : ∀ {n : Nat} {c : Config} {res : List Commit},
    run n c = some (.ok res) → ∃ t, res = c.acc ++ t := by
  intro n
  induction n with
  | zero => intro c res h; simp [run] at h
  | succ n ih =>
    intro c res h
    cases hs : step c with
    | done r =>
      rw [run_done hs] at h
      have hr : r = .ok res := by simpa using h
      subst hr
      exact ⟨[], by simpa using step_done_ok hs⟩
    | next c' =>
      rw [run_next hs] at h
      obtain ⟨t, ht⟩ := ih h
      obtain ⟨u, hu⟩ := step_acc_extends hs
      exact ⟨u ++ t, by rw [ht, hu, List.append_assoc]⟩

/-! Character and digit-run lemmas used to evaluate the matchers on
rendered grammar records. -/

theorem stripPre_append (p r : List Char) : stripPre? p (p ++ r) = some r := by
  induction p with
  | nil => rfl
  | cons a p ih => simp [stripPre?, ih]

theorem digit_not_ws {c : Char} (h : c.isDigit = true) : isWs c = false := by
  by_contra hw
  rw [Bool.not_eq_false] at hw
  simp only [isWs, Bool.or_eq_true, decide_eq_true_eq] at hw
  rcases hw with ((((h1 | h1) | h1) | h1) | h1) <;>
    (subst h1; exact absurd h (by decide))

theorem digit_not_nl {c : Char} (h : c.isDigit = true) : (c != '\n') = true := by
  simp only [bne_iff_ne, ne_eq]
  intro he
  subst he
  exact absurd h (by decide)

theorem digits_all {ds : List Char} (h : isDigits ds = true) :
    ds ≠ [] ∧ ∀ c ∈ ds, c.isDigit = true := by
  simp only [isDigits, Bool.and_eq_true, List.all_eq_true, Bool.not_eq_true',
    List.isEmpty_eq_false] at h
  exact ⟨by simpa using h.1, h.2⟩

theorem digits_noNl {ds : List Char} (h : isDigits ds = true) : noNl ds = true := by
  simp only [noNl, List.all_eq_true]
  exact fun c hc => digit_not_nl ((digits_all h).2 c hc)

theorem digits_not_ws {ds : List Char} (h : isDigits ds = true) :
    ∀ c ∈ ds, isWs c = false :=
  fun c hc => digit_not_ws ((digits_all h).2 c hc)

theorem span_digits {a : List Char} (ha : ∀ c ∈ a, c.isDigit = true) {x : Char}
    (hx : x.isDigit = false) (r : List Char) :
    (a ++ x :: r).takeWhile Char.isDigit = a
      ∧ (a ++ x :: r).dropWhile Char.isDigit = x :: r := by
  induction a with
  | nil => simp [List.takeWhile_cons, List.dropWhile_cons, hx]
  | cons c a ih =>
    have hc := ha c (by simp)
    have iha := ih fun d hd => ha d (by simp [hd])
    simp [List.takeWhile_cons, List.dropWhile_cons, hc, iha.1, iha.2]

/-! Evaluation lemmas for the stats matchers on strings with a symbolic
digit run embedded in them. -/

theorem insertsMatch_cons_nonws {c : Char} (hc : isWs c = false) (l : List Char) :
    insertsMatch (c :: l) = insertsMatch l := by
  simp [insertsMatch, hc]

theorem insertsMatch_skip_nonws {a : List Char} (ha : ∀ c ∈ a, isWs c = false)
    (l : List Char) : insertsMatch (a ++ l) = insertsMatch l := by
  induction a with
  | nil => rfl
  | cons c a ih =>
    rw [List.cons_append, insertsMatch_cons_nonws (ha c (by simp)),
      ih fun d hd => ha d (by simp [hd])]

theorem insertsMatch_ws_skip {c : Char} (hc : isWs c = true) {l : List Char}
    (hcond : (!(l.takeWhile Char.isDigit).isEmpty
        && insTail (l.dropWhile Char.isDigit)) = false) :
    insertsMatch (c :: l) = insertsMatch l := by
  simp [insertsMatch, hc, hcond]

theorem insertsMatch_ws_hit {c : Char} (hc : isWs c = true) {ds : List Char}
    (hds : isDigits ds = true) {x : Char} (hx : x.isDigit = false) {r : List Char}
    (ht : insTail (x :: r) = true) :
    insertsMatch (c :: (ds ++ x :: r)) = some ds := by
  have hsp := span_digits (digits_all hds).2 hx r
  simp [insertsMatch, hc, hsp.1, hsp.2, ht, (digits_all hds).1]

theorem deletesMatch_cons_nonws {c : Char} (hc : isWs c = false) (l : List Char) :
    deletesMatch (c :: l) = deletesMatch l := by
  simp [deletesMatch, hc]

theorem deletesMatch_skip_nonws {a : List Char} (ha : ∀ c ∈ a, isWs c = false)
    (l : List Char) : deletesMatch (a ++ l) = deletesMatch l := by
  induction a with
  | nil => rfl
  | cons c a ih =>
    rw [List.cons_append, deletesMatch_cons_nonws (ha c (by simp)),
      ih fun d hd => ha d (by simp [hd])]

theorem deletesMatch_ws_skip {c : Char} (hc : isWs c = true) {l : List Char}
    (hcond : (!(l.takeWhile Char.isDigit).isEmpty
        && delTail (l.dropWhile Char.isDigit)) = false) :
    deletesMatch (c :: l) = deletesMatch l := by
  simp [deletesMatch, hc, hcond]

theorem deletesMatch_ws_hit {c : Char} (hc : isWs c = true) {ds : List Char}
    (hds : isDigits ds = true) {x : Char} (hx : x.isDigit = false) {r : List Char}
    (ht : delTail (x :: r) = true) :
    deletesMatch (c :: (ds ++ x :: r)) = some ds := by
  have hsp := span_digits (digits_all hds).2 hx r
  simp [deletesMatch, hc, hsp.1, hsp.2, ht, (digits_all hds).1]

theorem filesMatch_cons_nondigit {c : Char} (hc : c.isDigit = false) (l : List Char) :
    filesMatch (c :: l) = filesMatch l := by
  simp [filesMatch, hc]

theorem filesMatch_digits_hit {ds : List Char} (hds : isDigits ds = true) {x : Char}
    (hx : x.isDigit = false) {r : List Char} (ht : filesTail (x :: r) = true) :
    filesMatch (ds ++ x :: r) = some ds := by
  obtain ⟨hne, hall⟩ := digits_all hds
  obtain ⟨d, ds2, rfl⟩ : ∃ d ds2, ds = d :: ds2 := by
    cases ds with
    | nil => exact absurd rfl hne
    | cons d ds2 => exact ⟨d, ds2, rfl⟩
  have hsp := span_digits hall hx r
  rw [List.cons_append]
  rw [List.cons_append] at hsp
  simp [filesMatch, hall d (by simp), hsp.1, hsp.2, ht]

theorem filesMatch_digits_skip {ds : List Char} (hall : ∀ c ∈ ds, c.isDigit = true)
    {x : Char} (hx : x.isDigit = false) {r : List Char}
    (ht : filesTail (x :: r) = false) :
    filesMatch (ds ++ x :: r) = filesMatch (x :: r) := by
  induction ds with
  | nil => rfl
  | cons d ds2 ih =>
    have hsp := span_digits hall hx r
    rw [List.cons_append] at hsp
    rw [List.cons_append]
    have hd := hall d (by simp)
    simp only [filesMatch, hd, if_pos, hsp.2, ht, if_neg, Bool.false_eq_true, if_false]
    exact ih fun c hc => hall c (by simp [hc])

/-! Rendering lemmas: the date parser on a rendered `YYYY-MM-DD HH:MM:SS`. -/

theorem digitChar_facts {k : Nat} (hk : k < 10) :
    (digitChar k).isDigit = true ∧ (digitChar k).toNat - 48 = k
      ∧ isWs (digitChar k) = false ∧ (digitChar k != '\n') = true := by
  interval_cases k <;> exact ⟨by decide, by decide, by decide, by decide⟩

theorem readDigits_step {acc n : Nat} {c : Char} (hc : c.isDigit = true) (l : List Char) :
    readDigitsAux acc (n + 1) (c :: l) = readDigitsAux (acc * 10 + (c.toNat - 48)) n l := by
  simp [readDigitsAux, hc]

theorem readDigits_pad2 {n : Nat} (hn : n ≤ 99) (r : List Char) :
    readDigitsAux 0 2 (pad2 n ++ r) = some (n, r) := by
  have h1 := digitChar_facts (Nat.mod_lt (n / 10) (by norm_num))
  have h2 := digitChar_facts (Nat.mod_lt n (by norm_num))
  show readDigitsAux 0 2 (digitChar (n / 10 % 10) :: digitChar (n % 10) :: r) = some (n, r)
  rw [show (2 : Nat) = 1 + 1 from rfl, readDigits_step h1.1,
    show (1 : Nat) = 0 + 1 from rfl, readDigits_step h2.1]
  simp only [readDigitsAux, h1.2.1, h2.2.1, Option.some.injEq, Prod.mk.injEq]
  exact ⟨by omega, trivial⟩

theorem readDigits_pad2_nil {n : Nat} (hn : n ≤ 99) :
    readDigitsAux 0 2 (pad2 n) = some (n, []) := by
  have := readDigits_pad2 hn []
  simpa using this

theorem readDigits_pad4 {n : Nat} (hn : n ≤ 9999) (r : List Char) :
    readDigitsAux 0 4 (pad4 n ++ r) = some (n, r) := by
  have h1 := digitChar_facts (Nat.mod_lt (n / 1000) (by norm_num))
  have h2 := digitChar_facts (Nat.mod_lt (n / 100) (by norm_num))
  have h3 := digitChar_facts (Nat.mod_lt (n / 10) (by norm_num))
  have h4 := digitChar_facts (Nat.mod_lt n (by norm_num))
  show readDigitsAux 0 4 (digitChar (n / 1000 % 10) :: digitChar (n / 100 % 10)
      :: digitChar (n / 10 % 10) :: digitChar (n % 10) :: r) = some (n, r)
  rw [show (4 : Nat) = 3 + 1 from rfl, readDigits_step h1.1,
    show (3 : Nat) = 2 + 1 from rfl, readDigits_step h2.1,
    show (2 : Nat) = 1 + 1 from rfl, readDigits_step h3.1,
    show (1 : Nat) = 0 + 1 from rfl, readDigits_step h4.1]
  simp only [readDigitsAux, h1.2.1, h2.2.1, h3.2.1, h4.2.1, Option.some.injEq,
    Prod.mk.injEq]
  exact ⟨by omega, trivial⟩

theorem option_some_bind {α β : Type} (a : α) (f : α → Option β) :
    (some a).bind f = f a := rfl

theorem daysInMonth_le (y m : Nat) : daysInMonth y m ≤ 31 := by
  unfold daysInMonth
  split <;> (try split) <;> omega

theorem expectChar_cons (x : Char) (r : List Char) : expectChar x (x :: r) = some r := by
  simp [expectChar]

theorem parseDT_render {y mo d hh mi s : Nat} (hy : y ≤ 9999) (hmo1 : 1 ≤ mo)
    (hmo2 : mo ≤ 12) (hd1 : 1 ≤ d) (hd2 : d ≤ daysInMonth y mo) (hhh : hh ≤ 23)
    (hmi : mi ≤ 59) (hs : s ≤ 59) :
    parseDT (dateChars y mo d hh mi s) = some ⟨y, mo, d, hh, mi, s⟩ := by
  unfold parseDT dateChars
  rw [readDigits_pad4 hy, option_some_bind]
  simp only []
  rw [expectChar_cons, option_some_bind]
  rw [readDigits_pad2 (by omega : mo ≤ 99), option_some_bind]
  simp only []
  rw [expectChar_cons, option_some_bind]
  rw [readDigits_pad2 (by have := daysInMonth_le y mo; omega : d ≤ 99), option_some_bind]
  simp only []
  rw [expectChar_cons, option_some_bind]
  rw [readDigits_pad2 (by omega : hh ≤ 99), option_some_bind]
  simp only []
  rw [expectChar_cons, option_some_bind]
  rw [readDigits_pad2 (by omega : mi ≤ 99), option_some_bind]
  simp only []
  rw [expectChar_cons, option_some_bind]
  rw [readDigits_pad2_nil (by omega : s ≤ 99), option_some_bind]
  simp only []
  rw [if_pos ⟨by trivial, hmo1, hmo2, hd1, hd2, hhh, hmi, hs⟩]

theorem noNl_dateChars (y mo d hh mi s : Nat) :
    noNl (dateChars y mo d hh mi s) = true := by
  have e : ∀ k : Nat, (digitChar (k % 10) != '\n') = true :=
    fun k => (digitChar_facts (Nat.mod_lt k (by norm_num))).2.2.2
  simp [dateChars, noNl, pad2, pad4, e]

theorem notWs_dateChars_head (y : Nat) :
    isWs (digitChar (y / 1000 % 10)) = false :=
  (digitChar_facts (Nat.mod_lt (y / 1000) (by norm_num))).2.2.1

/-- Trimming three leading blanks plus a rendered date-time yields the
date-time itself. -/
theorem trim_dateChars (y mo d hh mi s : Nat) :
    trim ("   ".toList ++ dateChars y mo d hh mi s) = dateChars y mo d hh mi s := by
  have hhead := notWs_dateChars_head y
  have hlast : isWs (digitChar (s % 10)) = false :=
    (digitChar_facts (Nat.mod_lt s (by norm_num))).2.2.1
  have h1 : trimL ("   ".toList ++ dateChars y mo d hh mi s)
      = dateChars y mo d hh mi s := by
    show List.dropWhile isWs (' ' :: ' ' :: ' ' :: dateChars y mo d hh mi s) = _
    rw [List.dropWhile_cons_of_pos (by decide), List.dropWhile_cons_of_pos (by decide),
      List.dropWhile_cons_of_pos (by decide)]
    unfold dateChars pad4
    rw [List.cons_append, List.dropWhile_cons_of_neg (by rw [hhead]; simp)]
  have h2 : ∃ A, dateChars y mo d hh mi s = A ++ [digitChar (s % 10)] := by
    refine ⟨pad4 y ++ '-' :: pad2 mo ++ '-' :: pad2 d ++ ' ' :: pad2 hh
      ++ ':' :: pad2 mi ++ ':' :: [digitChar (s / 10 % 10)], ?_⟩
    simp [dateChars, pad2, pad4]
  obtain ⟨A, hA⟩ := h2
  unfold trim
  rw [h1, hA]
  unfold trimR
  rw [List.reverse_append]
  show (List.dropWhile isWs (digitChar (s % 10) :: A.reverse)).reverse = _
  rw [List.dropWhile_cons_of_neg (by rw [hlast]; simp)]
  simp

/-! Evaluating the three stats matchers on a rendered stats line. -/

theorem noNl_append (a b : List Char) : noNl (a ++ b) = (noNl a && noNl b) := by
  simp [noNl, List.all_append]

theorem noNl_insSeg {iP : Option (List Char)} (h : optDigitsOK iP) :
    noNl (insSeg iP) = true := by
  cases iP with
  | none => rfl
  | some dsI =>
    show noNl (", ".toList ++ (dsI ++ " insertions(+)".toList)) = true
    rw [noNl_append, noNl_append, digits_noNl h.1]
    decide

theorem noNl_delSeg {dP : Option (List Char)} (h : optDigitsOK dP) :
    noNl (delSeg dP) = true := by
  cases dP with
  | none => rfl
  | some dsD =>
    show noNl (", ".toList ++ (dsD ++ " deletions(-)".toList)) = true
    rw [noNl_append, noNl_append, digits_noNl h.1]
    decide

theorem dotPlus_tail {iP dP : Option (List Char)} (hiP : optDigitsOK iP)
    (hdP : optDigitsOK dP) (hsome : iP.isSome = true ∨ dP.isSome = true) :
    dotPlus (insSeg iP ++ delSeg dP) = true := by
  have hno : noNl (insSeg iP ++ delSeg dP) = true := by
    rw [noNl_append, noNl_insSeg hiP, noNl_delSeg hdP]
    rfl
  have hne : (insSeg iP ++ delSeg dP).isEmpty = false := by
    cases iP with
    | some dsI => rfl
    | none =>
      cases dP with
      | some dsD => rfl
      | none => simp at hsome
  simp [dotPlus, hne, hno]

theorem seg_files_expose (T : List Char) :
    " files changed".toList ++ T = ' ' :: ("files changed".toList ++ T) := rfl

theorem filesTail_seg {T : List Char} (hT : dotPlus T = true) :
    filesTail (' ' :: ("files changed".toList ++ T)) = true := by
  have e : filesTail (' ' :: ("files changed".toList ++ T))
      = (dotPlus ([] ++ T) || false) := rfl
  rw [e, List.nil_append, hT]
  rfl

/-- The files pattern on a rendered stats line captures the files digits. -/
theorem filesMatch_statsLine {dsF : List Char} {iP dP : Option (List Char)}
    (hF : isDigits dsF = true) (hiP : optDigitsOK iP) (hdP : optDigitsOK dP)
    (hsome : iP.isSome = true ∨ dP.isSome = true) :
    filesMatch (statsLine dsF iP dP) = some dsF := by
  unfold statsLine
  rw [filesMatch_cons_nondigit (by decide), seg_files_expose]
  exact filesMatch_digits_hit hF (by decide)
    (filesTail_seg (dotPlus_tail hiP hdP hsome))

/-- The insertion pattern on a rendered stats line captures exactly the
insertion clause's digits when present, and fails when absent. -/
theorem insertsMatch_statsLine {dsF : List Char} {iP dP : Option (List Char)}
    (hF : isDigits dsF = true) (hiP : optDigitsOK iP) (hdP : optDigitsOK dP) :
    insertsMatch (statsLine dsF iP dP) = iP := by
  unfold statsLine
  rw [seg_files_expose]
  have hsp := span_digits (digits_all hF).2 (by decide : (' ' : Char).isDigit = false)
    ("files changed".toList ++ (insSeg iP ++ delSeg dP))
  have hcond : (!((dsF ++ ' ' :: ("files changed".toList ++ (insSeg iP ++ delSeg dP))).takeWhile
        Char.isDigit).isEmpty
      && insTail ((dsF ++ ' ' :: ("files changed".toList ++ (insSeg iP ++ delSeg dP))).dropWhile
        Char.isDigit)) = false := by
    rw [hsp.1, hsp.2,
      show insTail (' ' :: ("files changed".toList ++ (insSeg iP ++ delSeg dP))) = false from rfl,
      Bool.and_false]
  rw [insertsMatch_ws_skip (by decide) hcond,
    insertsMatch_skip_nonws (digits_not_ws hF),
    show insertsMatch (' ' :: ("files changed".toList ++ (insSeg iP ++ delSeg dP)))
      = insertsMatch ([] ++ (insSeg iP ++ delSeg dP)) from rfl,
    List.nil_append]
  cases iP with
  | none =>
    rw [show insSeg none = ([] : List Char) from rfl, List.nil_append]
    cases dP with
    | none => rfl
    | some dsD =>
      show insertsMatch (", ".toList ++ (dsD ++ " deletions(-)".toList)) = none
      rw [show (", ".toList ++ (dsD ++ " deletions(-)".toList) : List Char)
          = ',' :: (' ' :: (dsD ++ " deletions(-)".toList)) from rfl,
        insertsMatch_cons_nonws (by decide),
        show (" deletions(-)".toList : List Char) = ' ' :: "deletions(-)".toList from rfl]
      have hsp2 := span_digits (digits_all hdP.1).2
        (by decide : (' ' : Char).isDigit = false) ("deletions(-)".toList)
      have hcond2 : (!((dsD ++ ' ' :: "deletions(-)".toList).takeWhile Char.isDigit).isEmpty
          && insTail ((dsD ++ ' ' :: "deletions(-)".toList).dropWhile Char.isDigit)) = false := by
        rw [hsp2.1, hsp2.2, show insTail (' ' :: "deletions(-)".toList) = false from rfl,
          Bool.and_false]
      rw [insertsMatch_ws_skip (by decide) hcond2,
        insertsMatch_skip_nonws (digits_not_ws hdP.1)]
      rfl
  | some dsI =>
    show insertsMatch ((", ".toList ++ (dsI ++ " insertions(+)".toList)) ++ delSeg dP)
      = some dsI
    rw [List.append_assoc, List.append_assoc,
      show (", ".toList ++ (dsI ++ (" insertions(+)".toList ++ delSeg dP)) : List Char)
        = ',' :: (' ' :: (dsI ++ (" insertions(+)".toList ++ delSeg dP))) from rfl,
      insertsMatch_cons_nonws (by decide),
      show (" insertions(+)".toList ++ delSeg dP : List Char)
        = ' ' :: ("insertions(+)".toList ++ delSeg dP) from rfl]
    have ht : insTail (' ' :: ("insertions(+)".toList ++ delSeg dP)) = true := by
      have e : insTail (' ' :: ("insertions(+)".toList ++ delSeg dP))
          = (dotPlus (['(', '+', ')'] ++ delSeg dP)
            || dotPlus ('s' :: (['(', '+', ')'] ++ delSeg dP))) := rfl
      have h1 : dotPlus (['(', '+', ')'] ++ delSeg dP) = true := by
        have hno2 : noNl (['(', '+', ')'] ++ delSeg dP) = true := by
          rw [noNl_append, noNl_delSeg hdP]
          decide
        unfold dotPlus
        rw [hno2]
        rfl
      rw [e, h1]
      rfl
    exact insertsMatch_ws_hit (by decide) hiP.1 (by decide) ht

/-- The deletion pattern on a rendered stats line captures exactly the
deletion clause's digits when present, and fails when absent. -/
theorem deletesMatch_statsLine {dsF : List Char} {iP dP : Option (List Char)}
    (hF : isDigits dsF = true) (hiP : optDigitsOK iP) (hdP : optDigitsOK dP) :
    deletesMatch (statsLine dsF iP dP) = dP := by
  unfold statsLine
  rw [seg_files_expose]
  have hsp := span_digits (digits_all hF).2 (by decide : (' ' : Char).isDigit = false)
    ("files changed".toList ++ (insSeg iP ++ delSeg dP))
  have hcond : (!((dsF ++ ' ' :: ("files changed".toList ++ (insSeg iP ++ delSeg dP))).takeWhile
        Char.isDigit).isEmpty
      && delTail ((dsF ++ ' ' :: ("files changed".toList ++ (insSeg iP ++ delSeg dP))).dropWhile
        Char.isDigit)) = false := by
    rw [hsp.1, hsp.2,
      show delTail (' ' :: ("files changed".toList ++ (insSeg iP ++ delSeg dP))) = false from rfl,
      Bool.and_false]
  rw [deletesMatch_ws_skip (by decide) hcond,
    deletesMatch_skip_nonws (digits_not_ws hF),
    show deletesMatch (' ' :: ("files changed".toList ++ (insSeg iP ++ delSeg dP)))
      = deletesMatch ([] ++ (insSeg iP ++ delSeg dP)) from rfl,
    List.nil_append]
  have hdel : deletesMatch (delSeg dP) = dP := by
    cases dP with
    | none => rfl
    | some dsD =>
      show deletesMatch (", ".toList ++ (dsD ++ " deletions(-)".toList)) = some dsD
      rw [show (", ".toList ++ (dsD ++ " deletions(-)".toList) : List Char)
          = ',' :: (' ' :: (dsD ++ " deletions(-)".toList)) from rfl,
        deletesMatch_cons_nonws (by decide),
        show (" deletions(-)".toList : List Char) = ' ' :: "deletions(-)".toList from rfl]
      exact deletesMatch_ws_hit (by decide) hdP.1 (by decide) (by decide)
  cases iP with
  | none =>
    rw [show insSeg none = ([] : List Char) from rfl, List.nil_append]
    exact hdel
  | some dsI =>
    show deletesMatch ((", ".toList ++ (dsI ++ " insertions(+)".toList)) ++ delSeg dP) = dP
    rw [List.append_assoc, List.append_assoc,
      show (", ".toList ++ (dsI ++ (" insertions(+)".toList ++ delSeg dP)) : List Char)
        = ',' :: (' ' :: (dsI ++ (" insertions(+)".toList ++ delSeg dP))) from rfl,
      deletesMatch_cons_nonws (by decide),
      show (" insertions(+)".toList ++ delSeg dP : List Char)
        = ' ' :: ("insertions(+)".toList ++ delSeg dP) from rfl]
    have hsp3 := span_digits (digits_all hiP.1).2
      (by decide : (' ' : Char).isDigit = false) ("insertions(+)".toList ++ delSeg dP)
    have hcond3 : (!((dsI ++ ' ' :: ("insertions(+)".toList ++ delSeg dP)).takeWhile
          Char.isDigit).isEmpty
        && delTail ((dsI ++ ' ' :: ("insertions(+)".toList ++ delSeg dP)).dropWhile
          Char.isDigit)) = false := by
      rw [hsp3.1, hsp3.2,
        show delTail (' ' :: ("insertions(+)".toList ++ delSeg dP)) = false from rfl,
        Bool.and_false]
    rw [deletesMatch_ws_skip (by decide) hcond3,
      deletesMatch_skip_nonws (digits_not_ws hiP.1),
      show deletesMatch (' ' :: ("insertions(+)".toList ++ delSeg dP))
        = deletesMatch ([] ++ delSeg dP) from rfl,
      List.nil_append]
    exact hdel

/-! Evaluating the author and hash patterns on rendered lines. -/

theorem dotPlus_of {h : List Char} (h1 : h ≠ []) (h2 : noNl h = true) :
    dotPlus h = true := by
  unfold dotPlus
  rw [h2, Bool.and_true, Bool.not_eq_true']
  simpa using h1

theorem hashMatch_render {h : List Char} (h1 : h ≠ []) (h2 : noNl h = true) :
    hashMatch ("commit ".toList ++ h) = some h := by
  unfold hashMatch
  rw [stripPre_append]
  show (if dotPlus h = true then some h else none) = some h
  rw [if_pos (dotPlus_of h1 h2)]

theorem splitAu_of_noSeq : ∀ {l : List Char},
    hasSeq " <".toList l = false → splitAu l = none := by
  intro l
  induction l with
  | nil => intro _; rfl
  | cons c rest ih =>
    intro h
    have hdef : hasSeq " <".toList (c :: rest)
        = ((stripPre? " <".toList (c :: rest)).isSome || hasSeq " <".toList rest) := rfl
    rw [hdef, Bool.or_eq_false_iff] at h
    rw [splitAu_cons, ih h.2]
    simp only []
    by_cases hc : c = ' '
    · subst hc
      rw [if_pos rfl]
      cases rest with
      | nil => rfl
      | cons c2 b =>
        by_cases hc2 : c2 = '<'
        · subst hc2
          exfalso
          have hsp : (stripPre? " <".toList (' ' :: '<' :: b)).isSome = true := rfl
          rw [h.1] at hsp
          exact Bool.false_ne_true hsp
        · split
          · rename_i b2 heq
            injection heq with ha hb
            exact absurd ha hc2
          · rfl
    · rw [if_neg hc]

theorem splitAu_base {email : List Char} (he1 : email ≠ [])
    (he3 : hasSeq " <".toList email = false) :
    splitAu (' ' :: ('<' :: email)) = some ([], email) := by
  have h1 : splitAu ('<' :: email) = none := by
    rw [splitAu_cons, splitAu_of_noSeq he3]
    simp only []
    rw [if_neg (by decide : ¬('<' : Char) = ' ')]
  rw [splitAu_cons, h1]
  simp only []
  simp [he1]

theorem splitAu_extend : ∀ (name : List Char) {core a b : List Char},
    splitAu core = some (a, b) → splitAu (name ++ core) = some (name ++ a, b) := by
  intro name
  induction name with
  | nil => intro core a b h; simpa using h
  | cons c nm ih =>
    intro core a b h
    rw [List.cons_append, splitAu_cons, ih h]
    rfl

theorem authorMatch_render {name email : List Char} (hn1 : name ≠ [])
    (he1 : email ≠ []) (hn2 : noNl name = true) (he2 : noNl email = true)
    (he3 : hasSeq " <".toList email = false) :
    authorMatch (authorLine name email) = some (name, email) := by
  unfold authorMatch authorLine
  rw [stripPre_append]
  simp only []
  have hr : noNl (name ++ (" <".toList ++ (email ++ ['>']))) = true := by
    rw [noNl_append, noNl_append, noNl_append, hn2, he2]
    decide
  rw [if_pos hr]
  have hshape : name ++ (" <".toList ++ (email ++ ['>']))
      = (name ++ (' ' :: ('<' :: email))) ++ ['>'] := by
    simp [List.append_assoc]
  rw [hshape, List.reverse_append]
  show (match splitAu (name ++ (' ' :: ('<' :: email))).reverse.reverse with
        | none => none
        | some (n, e) => if n.isEmpty then none else some (n, e)) = some (name, email)
  rw [List.reverse_reverse, splitAu_extend name (splitAu_base he1 he3), List.append_nil]
  simp [hn1]

/-! Evaluating the date field on a rendered date line. -/

theorem parse_date_render {y mo d hh mi s : Nat} (hy : y ≤ 9999) (hmo1 : 1 ≤ mo)
    (hmo2 : mo ≤ 12) (hd1 : 1 ≤ d) (hd2 : d ≤ daysInMonth y mo) (hhh : hh ≤ 23)
    (hmi : mi ≤ 59) (hs : s ≤ 59) :
    parse_date (some ("Date:   ".toList ++ dateChars y mo d hh mi s))
      = .ok ⟨y, mo, d, hh, mi, s⟩ := by
  have e : "Date:   ".toList ++ dateChars y mo d hh mi s
      = "Date:".toList ++ ("   ".toList ++ dateChars y mo d hh mi s) := rfl
  have hno : noNl ("   ".toList ++ dateChars y mo d hh mi s) = true := by
    rw [noNl_append, noNl_dateChars]
    decide
  have hdp : dotPlus ("   ".toList ++ dateChars y mo d hh mi s) = true := by
    unfold dotPlus
    rw [hno, Bool.and_true,
      show (("   ".toList ++ dateChars y mo d hh mi s).isEmpty) = false from rfl]
    rfl
  have hdm : dateMatch ("Date:   ".toList ++ dateChars y mo d hh mi s)
      = some ("   ".toList ++ dateChars y mo d hh mi s) := by
    unfold dateMatch
    rw [e, stripPre_append]
    show (if dotPlus ("   ".toList ++ dateChars y mo d hh mi s) = true
        then some ("   ".toList ++ dateChars y mo d hh mi s) else none) = _
    rw [if_pos hdp]
  show (match dateMatch ("Date:   ".toList ++ dateChars y mo d hh mi s) with
        | none => Except.error PError.noMatch
        | some r =>
          match parseDT (trim r) with
          | none => Except.error PError.badDate
          | some dt => Except.ok dt) = Except.ok ⟨y, mo, d, hh, mi, s⟩
  rw [hdm]
  show (match parseDT (trim ("   ".toList ++ dateChars y mo d hh mi s)) with
        | none => Except.error PError.badDate
        | some dt => Except.ok dt) = Except.ok ⟨y, mo, d, hh, mi, s⟩
  rw [trim_dateChars, parseDT_render hy hmo1 hmo2 hd1 hd2 hhh hmi hs]

theorem statOf_eq_optVal {o : Option (List Char)} (h : optDigitsOK o) :
    statOf o = optVal o := by
  cases o with
  | none => rfl
  | some ds => simp [statOf, optVal, u32Parse, h.2]

theorem noNl_cons (c : Char) (l : List Char) :
    noNl (c :: l) = ((c != '\n') && noNl l) := by
  simp [noNl]

theorem noNl_statsLine {dsF : List Char} {iP dP : Option (List Char)}
    (hF : isDigits dsF = true) (hiP : optDigitsOK iP) (hdP : optDigitsOK dP) :
    noNl (statsLine dsF iP dP) = true := by
  unfold statsLine
  rw [noNl_cons, noNl_append, noNl_append, noNl_append, digits_noNl hF,
    noNl_insSeg hiP, noNl_delSeg hdP]
  decide

theorem splitNl_joinNl : ∀ {ls : List (List Char)}, ls ≠ [] →
    (∀ l ∈ ls, noNl l = true) → splitNl (joinNl ls) = ls := by
  intro ls
  induction ls with
  | nil => intro hne _; exact absurd rfl hne
  | cons l ms ih =>
    intro _ hno
    cases ms with
    | nil => exact splitNl_noNl (hno l (by simp))
    | cons l2 ms2 =>
      show splitNl (l ++ '\n' :: joinNl (l2 :: ms2)) = l :: (l2 :: ms2)
      rw [splitNl_append (hno l (by simp)),
        ih (by simp) fun x hx => hno x (by simp [hx])]

/-- A single grammar record parses to exactly one commit carrying the
literal embedded values; absent stats clauses default to 0. -/
theorem renderRecord_parses :
    ∀ (hsh name email : List Char) (y mo d hh mi s : Nat)
      (msgs : List (List Char)) (dsF : List Char) (iP dP : Option (List Char)),
      hsh ≠ [] → noNl hsh = true →
      name ≠ [] → noNl name = true →
      email ≠ [] → noNl email = true → hasSeq " <".toList email = false →
      y ≤ 9999 → 1 ≤ mo → mo ≤ 12 → 1 ≤ d → d ≤ daysInMonth y mo →
      hh ≤ 23 → mi ≤ 59 → s ≤ 59 →
      (∀ l ∈ msgs, filesMatch l = none ∧ insertsMatch l = none
        ∧ deletesMatch l = none ∧ noNl l = true) →
      isDigits dsF = true →
      optDigitsOK iP → optDigitsOK dP →
      (iP.isSome = true ∨ dP.isSome = true) →
      parse (renderRecord hsh name email y mo d hh mi s msgs (statsLine dsF iP dP))
        = some (.ok [⟨hsh, ⟨name, email⟩, ⟨y, mo, d, hh, mi, s⟩,
            u32Parse dsF, statOf iP, statOf dP⟩]) := by
  intro hsh name email y mo d hh mi s msgs dsF iP dP
  intro hh1 hh2 hn1 hn2 he1 he2 he3 hy hmo1 hmo2 hd1 hd2 hhh hmi hs
  intro hmsgs hF hiP hdP hsome
  unfold parse initConfig renderRecord
  have hjl : splitNl (joinNl (["commit ".toList ++ hsh, authorLine name email,
        "Date:   ".toList ++ dateChars y mo d hh mi s] ++ msgs
        ++ [statsLine dsF iP dP]))
      = ["commit ".toList ++ hsh, authorLine name email,
        "Date:   ".toList ++ dateChars y mo d hh mi s] ++ msgs
        ++ [statsLine dsF iP dP] := by
    apply splitNl_joinNl (by simp)
    intro l hl
    simp only [List.append_assoc, List.cons_append, List.nil_append, List.mem_cons,
      List.mem_append, List.mem_singleton] at hl
    rcases hl with rfl | rfl | rfl | hl | hlast
    · rw [noNl_append, hh2]; decide
    · unfold authorLine
      rw [noNl_append, noNl_append, noNl_append, noNl_append, hn2, he2]; decide
    · rw [noNl_append, noNl_dateChars]; decide
    · exact (hmsgs l hl).2.2.2
    · rcases hlast with rfl | h0
      · exact noNl_statsLine hF hiP hdP
      · simp at h0
  rw [hjl]
  have hcons : (["commit ".toList ++ hsh, authorLine name email,
        "Date:   ".toList ++ dateChars y mo d hh mi s] ++ msgs
        ++ [statsLine dsF iP dP])
      = ("commit ".toList ++ hsh) :: (authorLine name email
        :: (("Date:   ".toList ++ dateChars y mo d hh mi s)
          :: (msgs ++ [statsLine dsF iP dP]))) := by
    simp
  rw [hcons]
  have hfuel : fuelFor ⟨.hash, Commit.default,
      ("commit ".toList ++ hsh) :: (authorLine name email
        :: (("Date:   ".toList ++ dateChars y mo d hh mi s)
          :: (msgs ++ [statsLine dsF iP dP]))), []⟩ = 3 * msgs.length + 13 := by
    simp [fuelFor, phase, List.length_append]
    omega
  rw [hfuel]
  have s1 : ∀ rest : List (List Char),
      step ⟨.hash, Commit.default, ("commit ".toList ++ hsh) :: rest, []⟩
        = .next ⟨.author, ⟨hsh, ⟨[], []⟩, ⟨1970, 1, 1, 0, 0, 0⟩, 0, 0, 0⟩, rest, []⟩ := by
    intro rest
    have hm : hashMatch ('c' :: 'o' :: 'm' :: 'm' :: 'i' :: 't' :: ' ' :: hsh) = some hsh :=
      hashMatch_render hh1 hh2
    simp [step, parse_hash, hm, Commit.default]
  have s2 : ∀ rest : List (List Char),
      step ⟨.author, ⟨hsh, ⟨[], []⟩, ⟨1970, 1, 1, 0, 0, 0⟩, 0, 0, 0⟩,
          authorLine name email :: rest, []⟩
        = .next ⟨.date, ⟨hsh, ⟨name, email⟩, ⟨1970, 1, 1, 0, 0, 0⟩, 0, 0, 0⟩, rest, []⟩ := by
    intro rest
    simp [step, parse_author, authorMatch_render hn1 he1 hn2 he2 he3]
  have s3 : ∀ rest : List (List Char),
      step ⟨.date, ⟨hsh, ⟨name, email⟩, ⟨1970, 1, 1, 0, 0, 0⟩, 0, 0, 0⟩,
          ("Date:   ".toList ++ dateChars y mo d hh mi s) :: rest, []⟩
        = .next ⟨.stats, ⟨hsh, ⟨name, email⟩, ⟨y, mo, d, hh, mi, s⟩, 0, 0, 0⟩, rest, []⟩ := by
    intro rest
    have hdt : parse_date (some ('D' :: 'a' :: 't' :: 'e' :: ':' :: ' ' :: ' ' :: ' '
        :: dateChars y mo d hh mi s)) = .ok ⟨y, mo, d, hh, mi, s⟩ :=
      parse_date_render hy hmo1 hmo2 hd1 hd2 hhh hmi hs
    simp [step, hdt]
  have s4 : step ⟨.stats, ⟨hsh, ⟨name, email⟩, ⟨y, mo, d, hh, mi, s⟩, 0, 0, 0⟩,
        [statsLine dsF iP dP], []⟩
      = .next ⟨.accept, ⟨hsh, ⟨name, email⟩, ⟨y, mo, d, hh, mi, s⟩,
          u32Parse dsF, statOf iP, statOf dP⟩, [], []⟩ := by
    rcases iP with _ | dsI <;> rcases dP with _ | dsD
    · simp at hsome
    · simp [step, parse_stat, filesMatch_statsLine hF hiP hdP hsome,
        insertsMatch_statsLine hF hiP hdP, deletesMatch_statsLine hF hiP hdP,
        isErrB, statOf, Except.toOption, Option.getD]
    · simp [step, parse_stat, filesMatch_statsLine hF hiP hdP hsome,
        insertsMatch_statsLine hF hiP hdP, deletesMatch_statsLine hF hiP hdP,
        isErrB, statOf, Except.toOption, Option.getD]
    · simp [step, parse_stat, filesMatch_statsLine hF hiP hdP hsome,
        insertsMatch_statsLine hF hiP hdP, deletesMatch_statsLine hF hiP hdP,
        isErrB, statOf, Except.toOption, Option.getD]
  have hrun : run (msgs.length + 6) ⟨.hash, Commit.default,
      ("commit ".toList ++ hsh) :: (authorLine name email
        :: (("Date:   ".toList ++ dateChars y mo d hh mi s)
          :: (msgs ++ [statsLine dsF iP dP]))), []⟩
      = some (.ok [⟨hsh, ⟨name, email⟩, ⟨y, mo, d, hh, mi, s⟩,
          u32Parse dsF, statOf iP, statOf dP⟩]) := by
    have e1 := run_next (s1 (authorLine name email
      :: (("Date:   ".toList ++ dateChars y mo d hh mi s)
        :: (msgs ++ [statsLine dsF iP dP])))) (msgs.length + 5)
    have e2 := run_next (s2 (("Date:   ".toList ++ dateChars y mo d hh mi s)
      :: (msgs ++ [statsLine dsF iP dP]))) (msgs.length + 4)
    have e3 := run_next (s3 (msgs ++ [statsLine dsF iP dP])) (msgs.length + 3)
    have e4 := run_stats_skip (fun l hl => ⟨(hmsgs l hl).1, (hmsgs l hl).2.1,
      (hmsgs l hl).2.2.1⟩) ⟨hsh, ⟨name, email⟩, ⟨y, mo, d, hh, mi, s⟩, 0, 0, 0⟩
      [statsLine dsF iP dP] [] 3
    have e5 := run_next s4 2
    have e6 : run (msgs.length + 6) ⟨.hash, Commit.default,
        ("commit ".toList ++ hsh) :: (authorLine name email
          :: (("Date:   ".toList ++ dateChars y mo d hh mi s)
            :: (msgs ++ [statsLine dsF iP dP]))), []⟩
        = run 2 ⟨.accept, ⟨hsh, ⟨name, email⟩, ⟨y, mo, d, hh, mi, s⟩,
            u32Parse dsF, statOf iP, statOf dP⟩, [], []⟩ := by
      rw [show msgs.length + 6 = (msgs.length + 5) + 1 from rfl, e1,
        show msgs.length + 5 = (msgs.length + 4) + 1 from rfl, e2,
        show msgs.length + 4 = (msgs.length + 3) + 1 from rfl, e3, e4,
        show (3 : Nat) = 2 + 1 from rfl, e5]
    rw [e6]
    rfl
  exact run_le (by omega) hrun

/-! ## Claim theorems -/


/-- C1 is false as stated: `c1input` matches the grammar of spec §6 (its
message lines are legal message lines), yet its message line
`  undo 1 insertions bad` matches the insertion pattern, so the record is
accepted early with the wrong stats and the real stats line is then fed to
the hash-expecting state — `parse` returns `NoMatch` instead of one Commit
with the literal embedded values. -/
theorem claim_C1_counterexample : parse c1input = some (.error .noMatch) := rfl

/-- C1 amended: for every valid single-record input of the §6 grammar
**whose message/blank lines match none of the three stats patterns and
whose stats line carries a files clause followed by at least one
insertion/deletion clause**, `parse` returns exactly one Commit carrying
the literal hash, author name, email and timestamp embedded in the input,
the files count of the stats line, and the insertion/deletion counts of
the present clauses, an absent clause defaulting to 0.  The stats-line
proviso is necessary, hence the second conjunct: on the grammatical
record `c1bare`, whose stats line is the bare files clause
` 3 files changed` (nothing after the word "changed"), none of the three
stats patterns match and the loop never terminates — `run` returns `none`
at every fuel. -/
theorem claim_C1_amended :
    (∀ (hsh name email : List Char) (y mo d hh mi s : Nat)
      (msgs : List (List Char)) (dsF : List Char) (iP dP : Option (List Char)),
      hsh ≠ [] → noNl hsh = true →
      name ≠ [] → noNl name = true →
      email ≠ [] → noNl email = true → hasSeq " <".toList email = false →
      y ≤ 9999 → 1 ≤ mo → mo ≤ 12 → 1 ≤ d → d ≤ daysInMonth y mo →
      hh ≤ 23 → mi ≤ 59 → s ≤ 59 →
      (∀ l ∈ msgs, filesMatch l = none ∧ insertsMatch l = none
        ∧ deletesMatch l = none ∧ noNl l = true) →
      isDigits dsF = true → natOfDigits dsF < 4294967296 →
      optDigitsOK iP → optDigitsOK dP →
      (iP.isSome = true ∨ dP.isSome = true) →
      parse (renderRecord hsh name email y mo d hh mi s msgs (statsLine dsF iP dP))
        = some (.ok [⟨hsh, ⟨name, email⟩, ⟨y, mo, d, hh, mi, s⟩,
            natOfDigits dsF, optVal iP, optVal dP⟩]))
    ∧ (∀ n, run n (initConfig c1bare) = none) := by
  constructor
  · intro hsh name email y mo d hh mi s msgs dsF iP dP
    intro hh1 hh2 hn1 hn2 he1 he2 he3 hy hmo1 hmo2 hd1 hd2 hhh hmi hs
    intro hmsgs hF hvF hiP hdP hsome
    rw [renderRecord_parses hsh name email y mo d hh mi s msgs dsF iP dP
      hh1 hh2 hn1 hn2 he1 he2 he3 hy hmo1 hmo2 hd1 hd2 hhh hmi hs hmsgs hF hiP hdP hsome,
      statOf_eq_optVal hiP, statOf_eq_optVal hdP,
      show u32Parse dsF = natOfDigits dsF from by unfold u32Parse; rw [if_pos hvF]]
  · refine run_none_of_next rfl ?_
    refine run_none_of_next rfl ?_
    refine run_none_of_next rfl ?_
    refine run_none_of_next rfl ?_
    refine run_none_of_next rfl ?_
    refine run_none_of_next rfl ?_
    refine run_none_of_next rfl ?_
    exact fun m => run_stats_nil _ _ m

/-- Witness for C1 at the concrete record of the repository's own test:
hash `a75c00d`, author `Jonathan Neufeld <jneufeld@alumni.ubc.ca>`,
`1 files changed, 43 insertions(+), 62 deletions(-)`. -/
theorem claim_C1_witness :
    parse (renderRecord "a75c00d".toList "Jonathan Neufeld".toList
        "jneufeld@alumni.ubc.ca".toList 2022 11 24 22 11 50
        [[], "  Refactor parser error handling".toList, []]
        (statsLine "1".toList (some "43".toList) (some "62".toList)))
      = some (.ok [⟨"a75c00d".toList,
          ⟨"Jonathan Neufeld".toList, "jneufeld@alumni.ubc.ca".toList⟩,
          ⟨2022, 11, 24, 22, 11, 50⟩, 1, 43, 62⟩]) :=
  claim_C1_amended.1 "a75c00d".toList "Jonathan Neufeld".toList
    "jneufeld@alumni.ubc.ca".toList 2022 11 24 22 11 50
    [[], "  Refactor parser error handling".toList, []]
    "1".toList (some "43".toList) (some "62".toList)
    (by decide) (by decide) (by decide) (by decide) (by decide) (by decide)
    (by decide) (by decide) (by decide) (by decide) (by decide) (by decide)
    (by decide) (by decide) (by decide) (by decide) (by decide) (by decide)
    ⟨by decide, by decide⟩ ⟨by decide, by decide⟩ (by decide)

/-- C2: the claim says `parse` terminates on every input, failing with
`UnexpectedEndOfInput` when the input is exhausted in the stats-expecting
state.  The code instead loops forever there: on `c2input` (hash, author
and date parsed, then a message line, then end of input) the loop never
terminates — `run` returns `none` for every fuel value, so `parse`
yields no result at all, not `UnexpectedEndOfInput`. -/
theorem claim_C2 : (∀ n, run n (initConfig c2input) = none) ∧ parse c2input = none := by
  constructor
  · refine run_none_of_next rfl ?_
    refine run_none_of_next rfl ?_
    refine run_none_of_next rfl ?_
    refine run_none_of_next rfl ?_
    exact fun m => run_stats_nil _ _ m
  · rfl

/-- C3 is false as stated: on empty input (and on blank-only input) the
machine starts in the hash-expecting state — not `Start` — so `parse`
fails with `NoMatch` instead of succeeding with an empty sequence. -/
theorem claim_C3_counterexample :
    parse [] = some (.error .noMatch) ∧ parse blankInput = some (.error .noMatch) :=
  ⟨rfl, rfl⟩

/-- C3 amended: `parse` starts in the hash-expecting state, so empty and
blank-only inputs fail with `NoMatch`; the `Start` state (entered only
after each accepted record) does consume and ignore blank lines and
terminates successfully when input runs out there — e.g. trailing blank
lines after a complete record are skipped and the parse succeeds. -/
theorem claim_C3_amended :
    parse [] = some (.error .noMatch)
    ∧ parse blankInput = some (.error .noMatch)
    ∧ (∀ (cm : Commit) (acc : List Commit) (ls : List (List Char)),
        (∀ l ∈ ls, (trim l).length = 0) →
        run (ls.length + 1) ⟨.start, cm, ls, acc⟩ = some (.ok acc))
    ∧ parse "commit a\nAuthor: J <j@e>\nDate:   2022-11-24 22:11:50\n1 file changed, 2 insertions(+)\n\n  ".toList
        = some (.ok [⟨"a".toList, ⟨"J".toList, "j@e".toList⟩, ⟨2022, 11, 24, 22, 11, 50⟩, 1, 2, 0⟩]) :=
  ⟨rfl, rfl, fun cm acc _ hb => run_start_blanks hb cm acc, rfl⟩

/-- Witness for the hypothesis-bearing part of the C3 amendment. -/
theorem claim_C3_witness :
    run 3 ⟨.start, Commit.default, [[], [' ']], []⟩ = some (.ok []) :=
  claim_C3_amended.2.2.1 Commit.default [] [[], [' ']] (by decide)

/-- C5 is false as stated: the bare line `3 files changed` does not match
the file-count pattern (`FILES_REGEX` demands at least one character after
"changed"), nor either other pattern, so the record is never accepted —
on `c5input` the stats-expecting state discards the line, the input is
then exhausted, and `parse` produces no result at all. -/
theorem claim_C5_counterexample :
    filesMatch "3 files changed".toList = none
    ∧ insertsMatch "3 files changed".toList = none
    ∧ deletesMatch "3 files changed".toList = none
    ∧ parse c5input = none :=
  ⟨rfl, rfl, rfl, rfl⟩

/-- C5 amended: a stats line carrying only a files clause is accepted as
soon as at least one character follows "changed" (here a comma): the
record parses with files=3, inserts=0, deletes=0. -/
theorem claim_C5_amended :
    filesMatch "  3 files changed,".toList = some ['3']
    ∧ parse c5fixed
        = some (.ok [⟨"abc".toList, ⟨"J".toList, "j@e".toList⟩, ⟨2022, 11, 24, 22, 11, 50⟩, 3, 0, 0⟩]) :=
  ⟨rfl, rfl⟩

/-- C6: an input ending right after a well-formed author line fails with
`UnexpectedEndOfInput`, and the error result carries no commits (the
result type is all-or-nothing).  Stated for every hash line and author
line the respective patterns accept. -/
theorem claim_C6 :
    ∀ (l1 l2 hsh an ae : List Char),
      hashMatch l1 = some hsh → authorMatch l2 = some (an, ae) →
      noNl l1 = true → noNl l2 = true →
      parse (l1 ++ '\n' :: l2) = some (.error .unexpectedEnd) := by
  intro l1 l2 hsh an ae h1 h2 hn1 hn2
  unfold parse initConfig
  rw [splitNl_append hn1, splitNl_noNl hn2]
  have s1 : step ⟨.hash, Commit.default, [l1, l2], []⟩
      = .next ⟨.author, ⟨hsh, ⟨[], []⟩, ⟨1970, 1, 1, 0, 0, 0⟩, 0, 0, 0⟩, [l2], []⟩ := by
    simp [step, parse_hash, h1, Commit.default]
  have s2 : step ⟨.author, ⟨hsh, ⟨[], []⟩, ⟨1970, 1, 1, 0, 0, 0⟩, 0, 0, 0⟩, [l2], []⟩
      = .next ⟨.date, ⟨hsh, ⟨an, ae⟩, ⟨1970, 1, 1, 0, 0, 0⟩, 0, 0, 0⟩, [], []⟩ := by
    simp [step, parse_author, h2]
  have hf : fuelFor ⟨.hash, Commit.default, [l1, l2], []⟩ = 7 := rfl
  rw [hf]
  calc run 7 ⟨.hash, Commit.default, [l1, l2], []⟩
      = run 6 ⟨.author, ⟨hsh, ⟨[], []⟩, ⟨1970, 1, 1, 0, 0, 0⟩, 0, 0, 0⟩, [l2], []⟩ :=
        run_next s1 6
    _ = run 5 ⟨.date, ⟨hsh, ⟨an, ae⟩, ⟨1970, 1, 1, 0, 0, 0⟩, 0, 0, 0⟩, [], []⟩ :=
        run_next s2 5
    _ = some (.error .unexpectedEnd) :=
        run_done (show step ⟨.date, ⟨hsh, ⟨an, ae⟩, ⟨1970, 1, 1, 0, 0, 0⟩, 0, 0, 0⟩, [], []⟩
            = .done (.error .unexpectedEnd) from rfl) 4

/-- Witness for C6 at the concrete truncated record `c6input`. -/
theorem claim_C6_witness : parse c6input = some (.error .unexpectedEnd) :=
  claim_C6 "commit abc".toList "Author: J <j@e>".toList "abc".toList "J".toList
    "j@e".toList rfl rfl rfl rfl

/-- C7: in the date-expecting state, a `Date:`-prefixed line whose value
does not parse (`not-a-date`, or month 13) fails with `BadDate`, while a
line lacking the prefix fails with `NoMatch`, and the two error values are
distinct. -/
theorem claim_C7 :
    parse c7badval = some (.error .badDate)
    ∧ parse c7month13 = some (.error .badDate)
    ∧ parse c7noprefix = some (.error .noMatch)
    ∧ PError.badDate ≠ PError.noMatch :=
  ⟨rfl, rfl, rfl, by decide⟩

/-- C9: a matched stats clause whose digit string exceeds `u32::MAX`
parses to 0 (`unwrap_or_default`), and parsing continues: on `c9input`
the record is accepted with inserts=0 while files=1 still parses. -/
theorem claim_C9 :
    (∀ ds : List Char, 4294967296 ≤ natOfDigits ds → u32Parse ds = 0)
    ∧ insertsMatch "  1 file changed, 4294967296 insertions(+)".toList
        = some "4294967296".toList
    ∧ parse c9input
        = some (.ok [⟨"abc".toList, ⟨"J".toList, "j@e".toList⟩, ⟨2022, 11, 24, 22, 11, 50⟩, 1, 0, 0⟩]) := by
  refine ⟨?_, rfl, rfl⟩
  intro ds h
  rw [u32Parse, if_neg (by omega)]

/-- Witness for the hypothesis-bearing part of C9, at the digit string
4294967296 = `u32::MAX + 1`. -/
theorem claim_C9_witness :
    4294967296 ≤ natOfDigits "4294967296".toList ∧ u32Parse "4294967296".toList = 0 :=
  ⟨by decide, claim_C9.1 "4294967296".toList (by decide)⟩

/-- C10: any line matching none of the three stats patterns is silently
discarded in the stats-expecting state; consequently on `c10input` (first
record without a stats line) the second record's header lines are consumed
there, its stats line is attributed to the first record, and the output
contains a single commit — hash of record one, stats of record two — with
no error. -/
theorem claim_C10 :
    (∀ (cm : Commit) (l : List Char) (ls : List (List Char)) (acc : List Commit) (n : Nat),
        filesMatch l = none → insertsMatch l = none → deletesMatch l = none →
        run (n + 1) ⟨.stats, cm, l :: ls, acc⟩ = run n ⟨.stats, cm, ls, acc⟩)
    ∧ parse c10input
        = some (.ok [⟨"aaa".toList, ⟨"A".toList, "a@x".toList⟩, ⟨2022, 11, 24, 22, 11, 50⟩, 1, 2, 3⟩]) := by
  refine ⟨?_, rfl⟩
  intro cm l ls acc n hf hi hd
  exact run_next (step_stats_skip cm ls acc hf hi hd) n

/-- Witness for the hypothesis-bearing part of C10: a following record's
`commit` header line is discarded by the stats-expecting state. -/
theorem claim_C10_witness :
    run 1 ⟨.stats, Commit.default, ["commit bbb".toList], []⟩
      = run 0 ⟨.stats, Commit.default, [], []⟩ :=
  claim_C10.1 Commit.default "commit bbb".toList [] [] 0 rfl rfl rfl

/-- C4: every commit in a successfully returned sequence has a non-empty
hash, author name and author email and a syntactically valid timestamp
(stats are `Nat`-valued, hence non-negative); the emitted sequence only
ever grows at its end (commits already emitted form a prefix of the final
result, preserving input order); and two consecutive well-formed records
yield a two-element sequence in input order. -/
theorem claim_C4 :
    (∀ (input : List Char) (res : List Commit), parse input = some (.ok res) →
        ∀ cm ∈ res, cm.hash ≠ [] ∧ cm.author.name ≠ [] ∧ cm.author.email ≠ []
          ∧ DTValid cm.date)
    ∧ (∀ (n : Nat) (c : Config) (res : List Commit), run n c = some (.ok res) →
        ∃ t, res = c.acc ++ t)
    ∧ parse c4input = some (.ok
        [⟨"abc123".toList, ⟨"Jon".toList, "jon@email.ca".toList⟩,
          ⟨2022, 11, 24, 22, 11, 50⟩, 1, 0, 2⟩,
         ⟨"def456".toList, ⟨"Not Jon".toList, "notjon@email.org".toList⟩,
          ⟨2022, 11, 25, 10, 0, 1⟩, 11, 22, 33⟩]) := by
  refine ⟨?_, ?_, rfl⟩
  · intro input res hp cm hcm
    have hinv : invConf (initConfig input) := by
      constructor
      · intro x hx
        simp [initConfig] at hx
      · exact trivial
    exact run_ok_inv hinv hp cm hcm
  · intro n c res h
    exact run_acc_prefix h

/-- Witness for C4 at a concrete parsed record. -/
theorem claim_C4_witness :
    (⟨"a".toList, ⟨"J".toList, "j@e".toList⟩, ⟨2022, 11, 24, 22, 11, 50⟩, 1, 2, 0⟩
        : Commit).hash ≠ []
    ∧ (⟨"a".toList, ⟨"J".toList, "j@e".toList⟩, ⟨2022, 11, 24, 22, 11, 50⟩, 1, 2, 0⟩
        : Commit).author.name ≠ []
    ∧ (⟨"a".toList, ⟨"J".toList, "j@e".toList⟩, ⟨2022, 11, 24, 22, 11, 50⟩, 1, 2, 0⟩
        : Commit).author.email ≠ []
    ∧ DTValid (⟨"a".toList, ⟨"J".toList, "j@e".toList⟩,
        ⟨2022, 11, 24, 22, 11, 50⟩, 1, 2, 0⟩ : Commit).date :=
  claim_C4.1
    "commit a\nAuthor: J <j@e>\nDate:   2022-11-24 22:11:50\n1 file changed, 2 insertions(+)\n\n  ".toList
    [⟨"a".toList, ⟨"J".toList, "j@e".toList⟩, ⟨2022, 11, 24, 22, 11, 50⟩, 1, 2, 0⟩] rfl
    ⟨"a".toList, ⟨"J".toList, "j@e".toList⟩, ⟨2022, 11, 24, 22, 11, 50⟩, 1, 2, 0⟩ (by simp)

/-! Helper lemmas for the aggregation claim. -/

theorem sum_map_zero (keys : List Nat) : (keys.map fun _ => (0 : Nat)).sum = 0 := by
  induction keys with
  | nil => rfl
  | cons k ks ih => simp [ih]

theorem sum_map_add (keys : List Nat) (A B : Nat → Nat) :
    (keys.map fun k => A k + B k).sum = (keys.map A).sum + (keys.map B).sum := by
  induction keys with
  | nil => rfl
  | cons k ks ih => simp [ih]; omega

theorem sum_indicator_zero {x : Nat} {keys : List Nat} (hx : x ∉ keys) :
    (keys.map fun k => if x = k then 1 else 0).sum = 0 := by
  induction keys with
  | nil => rfl
  | cons k ks ih =>
    simp only [List.mem_cons, not_or] at hx
    simp [if_neg hx.1, ih hx.2]

theorem sum_indicator_one {x : Nat} : ∀ {keys : List Nat}, keys.Nodup → x ∈ keys →
    (keys.map fun k => if x = k then 1 else 0).sum = 1 := by
  intro keys
  induction keys with
  | nil => intro _ hx; simp at hx
  | cons k ks ih =>
    intro hnd hx
    rcases List.mem_cons.mp hx with hk | hk
    · subst hk
      have : x ∉ ks := (List.nodup_cons.mp hnd).1
      simp [sum_indicator_zero this]
    · have hne : x ≠ k := by
        intro he
        subst he
        exact (List.nodup_cons.mp hnd).1 hk
      simp only [List.map_cons, List.sum_cons, if_neg hne]
      rw [ih (List.nodup_cons.mp hnd).2 hk]

theorem sum_counts (f : Commit → Nat) {keys : List Nat} (hnd : keys.Nodup) :
    ∀ (cs : List Commit), (∀ cm ∈ cs, f cm ∈ keys) →
      (keys.map fun k => (cs.filter fun cm => f cm == k).length).sum = cs.length := by
  intro cs
  induction cs with
  | nil => intro _; simp
  | cons c cs ih =>
    intro hmem
    have hsplit : ∀ k, ((c :: cs).filter fun cm => f cm == k).length
        = (cs.filter fun cm => f cm == k).length + (if f c = k then 1 else 0) := by
      intro k
      by_cases hk : f c = k
      · simp [List.filter_cons, hk]
      · simp [List.filter_cons, hk]
    rw [List.map_congr_left fun k _ => hsplit k, sum_map_add,
      ih fun cm hcm => hmem cm (by simp [hcm]),
      sum_indicator_one hnd (hmem c (by simp))]
    simp

theorem get_weekday_mem (cm : Commit) : get_weekday cm ∈ (List.range 7).map (· + 1) := by
  unfold get_weekday
  cases dayOfWeek cm.date.year cm.date.month cm.date.day <;> decide

/-- C8 (spec-modelled aggregation): the hour mapping's keys are exactly
0–23 and the weekday mapping's keys exactly 1–7, every key present; on the
empty sequence both mappings are all-zero; and for N commits the counts
sum to N (for the hour mapping under the commit invariant that hours are
in range, which `get_hour` of a parsed commit satisfies; `get_weekday`
lands in 1–7 unconditionally). -/
theorem claim_C8 :
    (∀ cs : List Commit, (bucket_by_hour cs).map Prod.fst = List.range 24)
    ∧ (∀ cs : List Commit, (bucket_by_weekday cs).map Prod.fst = (List.range 7).map (· + 1))
    ∧ (∀ p ∈ bucket_by_hour [], p.2 = 0)
    ∧ (∀ p ∈ bucket_by_weekday [], p.2 = 0)
    ∧ (∀ cs : List Commit, (∀ cm ∈ cs, get_hour cm ≤ 23) →
        ((bucket_by_hour cs).map Prod.snd).sum = cs.length)
    ∧ (∀ cs : List Commit, ((bucket_by_weekday cs).map Prod.snd).sum = cs.length) := by
  refine ⟨?_, ?_, ?_, ?_, ?_, ?_⟩
  · intro cs
    simp [bucket_by_hour, List.map_map, Function.comp_def]
  · intro cs
    simp [bucket_by_weekday, List.map_map, Function.comp_def]
  · intro p hp
    simp only [bucket_by_hour, List.mem_map] at hp
    obtain ⟨k, _, hk⟩ := hp
    simp [← hk]
  · intro p hp
    simp only [bucket_by_weekday, List.mem_map] at hp
    obtain ⟨k, _, hk⟩ := hp
    simp [← hk]
  · intro cs hcs
    have := sum_counts get_hour (List.nodup_range 24) cs
      (fun cm hcm => List.mem_range.mpr (by have := hcs cm hcm; omega))
    simpa [bucket_by_hour, List.map_map, Function.comp_def] using this
  · intro cs
    have hnd : ((List.range 7).map (· + 1)).Nodup := by decide
    have := sum_counts get_weekday hnd cs (fun cm _ => get_weekday_mem cm)
    simpa [bucket_by_weekday, List.map_map, Function.comp_def] using this

/-- Witness for the hypothesis-bearing parts of C8, on a singleton
commit sequence. -/
theorem claim_C8_witness :
    ((bucket_by_hour [⟨"a".toList, ⟨"J".toList, "j@e".toList⟩,
        ⟨2022, 11, 24, 22, 11, 50⟩, 1, 2, 0⟩]).map Prod.snd).sum = 1 :=
  claim_C8.2.2.2.2.1 _ (by decide)

end Yeesh
